import Mathlib

set_option maxRecDepth 8192

/-!
Shallow embedding of the leveldb sources in this repository:
table/block.cc (block reader and its iterator), db/dbformat.h
(internal-key parsing), and util/env_posix.cc (random-access reads,
the advisory lock table and the background scheduler).

Byte strings are modelled as List Nat (each element a byte value),
machine integers as Nat with an explicit mod 2^32 / 2^64 where the
C++ performs fixed-width arithmetic.  Fallible operations return
Option.  Comparator results are Int, as in the C++ int-returning
comparator.
-/

namespace LevelDB

/-- Status values that arise in the modelled code paths of block.cc:
only OK and Corruption are ever produced by the block iterator. -/
inductive BStatus where
  | ok
  | corruption
deriving DecidableEq, Repr

/-- Read the byte at index i of a byte string; out-of-range reads
return 0 (the C++ would read out of bounds there; no in-range proof
obligation is attached at definition sites, the well-formedness
predicates keep all verified executions in range). -/
def byteAt (data : List Nat) (i : Nat) : Nat := data.getD i 0

/-- Contiguous byte range [p, p+n) of a byte string, truncated at the
end of the string. -/
def readBytes (data : List Nat) (p n : Nat) : List Nat := (data.drop p).take n

/-- Modelled from the spec: DecodeFixed32 of util/coding.h (the file is
not under src/); the spec fixes the format as a little-endian u32. -/
def decodeFixed32 (data : List Nat) (p : Nat) : Nat :=
  byteAt data p + 256 * byteAt data (p + 1) + 65536 * byteAt data (p + 2) +
    16777216 * byteAt data (p + 3)

/-- Modelled from the spec: DecodeFixed64 of util/coding.h (the file is
not under src/); the spec fixes the format as a little-endian u64. -/
def decodeFixed64 (data : List Nat) (p : Nat) : Nat :=
  byteAt data p + 256 * byteAt data (p + 1) + 65536 * byteAt data (p + 2) +
    16777216 * byteAt data (p + 3) + 4294967296 * byteAt data (p + 4) +
    1099511627776 * byteAt data (p + 5) + 281474976710656 * byteAt data (p + 6) +
    72057594037927936 * byteAt data (p + 7)

/-- Modelled from the spec: the loop of GetVarint32Ptr in util/coding.h
(the file is not under src/); the spec fixes the entry header fields as
varint32.  One byte is consumed per step, seven payload bits little-endian
first, a set high bit means continuation; the loop runs for shifts
0,7,14,21,28 (five bytes at most) and fails if it would read past limit.
The fuel argument counts the remaining loop iterations. -/
def getVarintAux (data : List Nat) (limit : Nat) :
    Nat → Nat → Nat → Nat → Option (Nat × Nat)
  | 0, _, _, _ => none
  | fuel + 1, p, shift, result =>
    if p < limit then
      let b := byteAt data p
      if b &&& 128 ≠ 0 then
        getVarintAux data limit fuel (p + 1) (shift + 7)
          ((result ||| ((b &&& 127) <<< shift)) % 2 ^ 32)
      else
        some ((result ||| (b <<< shift)) % 2 ^ 32, p + 1)
    else
      none

/-- GetVarint32Ptr: decode one varint32 starting at p, never reading at
or past limit; returns the value and the position one past its last
byte. -/
def getVarint32Ptr (data : List Nat) (p limit : Nat) : Option (Nat × Nat) :=
  getVarintAux data limit 5 p 0 0

/-- Header part of DecodeEntry of block.cc: the three fields read with
the one-byte-each fast path (all three first bytes below 128), or as
three varint32 otherwise; returns the fields and the position just past
the header. -/
def decodeEntryHdr (data : List Nat) (p limit : Nat) :
    Option (Nat × Nat × Nat × Nat) :=
  let b0 := byteAt data p
  let b1 := byteAt data (p + 1)
  let b2 := byteAt data (p + 2)
  if b0 ||| b1 ||| b2 < 128 then
    some (b0, b1, b2, p + 3)
  else
    match getVarint32Ptr data p limit with
    | none => none
    | some (shared, p1) =>
      match getVarint32Ptr data p1 limit with
      | none => none
      | some (nonShared, p2) =>
        match getVarint32Ptr data p2 limit with
        | none => none
        | some (valueLen, p3) => some (shared, nonShared, valueLen, p3)

/-- DecodeEntry of block.cc: fail if fewer than 3 bytes remain before
limit, decode the header, then check that nonShared + valueLen (a u32
sum, hence mod 2^32) fits in the bytes remaining before limit.  Returns
(shared, nonShared, valueLen, key-delta position) or none on failure. -/
def decodeEntry (data : List Nat) (p limit : Nat) :
    Option (Nat × Nat × Nat × Nat) :=
  if limit - p < 3 then none
  else
    match decodeEntryHdr data p limit with
    | none => none
    | some (sh, ns, vl, q) =>
      if (limit - q) % 2 ^ 32 < (ns + vl) % 2 ^ 32 then none
      else some (sh, ns, vl, q)

/-- Immutable per-iterator block context handed to Block::Iter by
Block::NewIterator: the block bytes, the offset of the restart array
and the number of restart points. -/
structure BlockData where
  data : List Nat
  restarts : Nat
  numRestarts : Nat
deriving DecidableEq, Repr

/-- Mutable state of Block::Iter: current entry offset, restart index,
materialized key, value slice (offset and length into the block bytes)
and latched status.  The C++ default-constructed value_ slice is
modelled as offset 0, length 0. -/
structure IterState where
  current : Nat
  restartIndex : Nat
  key : List Nat
  valOff : Nat
  valLen : Nat
  status : BStatus
deriving DecidableEq, Repr

/-- Block::Iter::Valid: true iff current < restarts. -/
def IterState.valid (bd : BlockData) (st : IterState) : Bool :=
  st.current < bd.restarts

/-- Block::Iter::NextEntryOffset: offset just past the current entry,
returned as a u32 (the pointer difference is truncated to uint32_t). -/
def nextEntryOffset (st : IterState) : Nat :=
  (st.valOff + st.valLen) % 2 ^ 32

/-- Block::Iter::GetRestartPoint: the fixed32 at slot index of the
restart array. -/
def getRestartPoint (bd : BlockData) (index : Nat) : Nat :=
  decodeFixed32 bd.data (bd.restarts + index * 4)

/-- Block::Iter::SeekToRestartPoint: clear the key, set the restart
index, and park the value slice (length 0) at the restart offset so that
ParseNextKey starts there; current is fixed up by ParseNextKey. -/
def seekToRestartPoint (bd : BlockData) (index : Nat) (st : IterState) :
    IterState :=
  { st with
    key := []
    restartIndex := index
    valOff := getRestartPoint bd index
    valLen := 0 }

/-- Block::Iter::CorruptionError: park the cursor past the data region,
latch Corruption, and clear key and value (the cleared C++ slice is
modelled as offset 0, length 0). -/
def corruptionError (bd : BlockData) (st : IterState) : IterState :=
  { st with
    current := bd.restarts
    restartIndex := bd.numRestarts
    status := BStatus.corruption
    key := []
    valOff := 0
    valLen := 0 }

/-- Loop at the end of Block::Iter::ParseNextKey: advance restartIndex
while the next restart point is strictly below the new current offset.
The fuel counts remaining iterations; every increment needs
ri + 1 < numRestarts, so numRestarts iterations (the fuel used by the
wrapper below) always suffice and the loop semantics are exact. -/
def updateRIAux (bd : BlockData) (current : Nat) : Nat → Nat → Nat
  | 0, ri => ri
  | fuel + 1, ri =>
    if ri + 1 < bd.numRestarts ∧ getRestartPoint bd (ri + 1) < current then
      updateRIAux bd current fuel (ri + 1)
    else
      ri

def updateRestartIndex (bd : BlockData) (current ri : Nat) : Nat :=
  updateRIAux bd current bd.numRestarts ri

/-- Block::Iter::ParseNextKey: move current to the end of the previous
entry, stop (invalid, no error) at the restart array, decode the entry
header, check shared against the retained key, and on success
reconstruct key = prevKey[0..shared) ++ suffix, set the value slice and
update the restart index.  Returns (parsed?, new state). -/
def parseNextKey (bd : BlockData) (st : IterState) : Bool × IterState :=
  let current := nextEntryOffset st
  let p := current
  let limit := bd.restarts
  if limit ≤ p then
    (false, { st with current := bd.restarts, restartIndex := bd.numRestarts })
  else
    match decodeEntry bd.data p limit with
    | none => (false, corruptionError bd st)
    | some (shared, nonShared, valueLen, q) =>
      if st.key.length < shared then
        (false, corruptionError bd st)
      else
        (true,
          { st with
            current := current
            key := st.key.take shared ++ readBytes bd.data q nonShared
            valOff := q + nonShared
            valLen := valueLen
            restartIndex := updateRestartIndex bd current st.restartIndex })

/-- Block::Iter::Next (the Valid() assertion is a debug-mode
precondition, not a state change). -/
def nextOp (bd : BlockData) (st : IterState) : IterState :=
  (parseNextKey bd st).2

/-- First loop of Block::Iter::Prev: walk restartIndex backwards while
its restart point is at or past the original offset; none when the walk
runs off index 0 (no more entries).  The fuel counts remaining
iterations; ri decreases each step, so ri + 1 (the fuel used by the
wrapper below) always suffices and the loop semantics are exact. -/
def prevBackupAux (bd : BlockData) (original : Nat) :
    Nat → Nat → Option Nat
  | 0, _ => none
  | fuel + 1, ri =>
    if original ≤ getRestartPoint bd ri then
      if ri = 0 then none
      else prevBackupAux bd original fuel (ri - 1)
    else
      some ri

def prevBackup (bd : BlockData) (original ri : Nat) : Option Nat :=
  prevBackupAux bd original (ri + 1) ri

/-- Scan loop shared by Block::Iter::Prev and SeekToLast: repeatedly
ParseNextKey while it succeeds and the end of the parsed entry is still
strictly before stop.  The fuel bounds the number of iterations; every
terminating C++ execution on a block whose data region has size
bd.restarts makes at most bd.restarts + 1 iterations, the fuel used at
all call sites. -/
def scanUntil (bd : BlockData) (stop : Nat) : Nat → IterState → IterState
  | 0, st => st
  | fuel + 1, st =>
    let r := parseNextKey bd st
    if r.1 = true ∧ nextEntryOffset r.2 < stop then
      scanUntil bd stop fuel r.2
    else
      r.2

/-- Block::Iter::Prev: back the restart index up before the original
offset (invalid if that runs off the beginning), seek to that restart
point and scan forward until the next entry would land at or after the
original offset. -/
def prevOp (bd : BlockData) (st : IterState) : IterState :=
  let original := st.current
  match prevBackup bd original st.restartIndex with
  | none =>
    { st with current := bd.restarts, restartIndex := bd.numRestarts }
  | some ri =>
    scanUntil bd original (bd.restarts + 1) (seekToRestartPoint bd ri st)

/-- Block::Iter::SeekToFirst: seek to restart point 0 and parse one
entry. -/
def seekToFirst (bd : BlockData) (st : IterState) : IterState :=
  (parseNextKey bd (seekToRestartPoint bd 0 st)).2

/-- Block::Iter::SeekToLast: seek to the last restart point
(num_restarts_ - 1 in u32 arithmetic) and parse forward while the next
entry still starts before the restart array. -/
def seekToLast (bd : BlockData) (st : IterState) : IterState :=
  scanUntil bd bd.restarts (bd.restarts + 1)
    (seekToRestartPoint bd ((bd.numRestarts + (2 ^ 32 - 1)) % 2 ^ 32) st)

/-- Binary-search loop of Block::Iter::Seek over the restart array:
narrows [left, right] using the full key stored at each restart point
(none on a decode failure or a nonzero shared length there, which the
C++ turns into CorruptionError).  The fuel bounds the iteration count;
every terminating C++ execution halves right - left each step, so the
numRestarts + 1 fuel used at the call site is never exhausted. -/
def seekBinAux (bd : BlockData) (cmp : List Nat → List Nat → Int)
    (target : List Nat) : Nat → Nat → Nat → Option Nat
  | 0, left, _ => some left
  | fuel + 1, left, right =>
    if left < right then
      let mid := ((left + right + 1) % 2 ^ 32) / 2
      let regionOffset := getRestartPoint bd mid
      match decodeEntry bd.data regionOffset bd.restarts with
      | none => none
      | some (shared, nonShared, _, keyPtr) =>
        if shared ≠ 0 then none
        else
          let midKey := readBytes bd.data keyPtr nonShared
          if cmp midKey target < 0 then
            seekBinAux bd cmp target fuel mid right
          else
            seekBinAux bd cmp target fuel left (mid - 1)
    else
      some left

/-- Linear-scan loop of Block::Iter::Seek: ParseNextKey until it fails
(leaving the state it produced) or the reconstructed key is at or past
target.  The fuel bounds the iteration count as in scanUntil. -/
def seekLinear (bd : BlockData) (cmp : List Nat → List Nat → Int)
    (target : List Nat) : Nat → IterState → IterState
  | 0, st => st
  | fuel + 1, st =>
    let r := parseNextKey bd st
    if r.1 = false then r.2
    else if 0 ≤ cmp r.2.key target then r.2
    else seekLinear bd cmp target fuel r.2

/-- Tail of Block::Iter::Seek after the binary search: CorruptionError
when the restart-array probe failed, otherwise seek to the found
restart point and linear-scan for the first key ≥ target. -/
def seekFinish (bd : BlockData) (cmp : List Nat → List Nat → Int)
    (target : List Nat) (st : IterState) : Option Nat → IterState
  | none => corruptionError bd st
  | some left =>
    seekLinear bd cmp target (bd.restarts + 1) (seekToRestartPoint bd left st)

/-- Block::Iter::Seek: binary-search the restart array for the last
restart point whose key is < target (right starts at
num_restarts_ - 1 in u32 arithmetic), then finish with the linear scan
from that restart point. -/
def seekOp (bd : BlockData) (cmp : List Nat → List Nat → Int)
    (target : List Nat) (st : IterState) : IterState :=
  seekFinish bd cmp target st
    (seekBinAux bd cmp target (bd.numRestarts + 1) 0
      ((bd.numRestarts + (2 ^ 32 - 1)) % 2 ^ 32))

/-- State of a freshly constructed Block::Iter: current at the restart
array and restartIndex at numRestarts (both marking invalid), empty key,
default value slice, OK status. -/
def initIter (bd : BlockData) : IterState :=
  { current := bd.restarts
    restartIndex := bd.numRestarts
    key := []
    valOff := 0
    valLen := 0
    status := BStatus.ok }

/-- Block object as built by the Block constructor: the bytes, the
possibly-zeroed size (0 is the corruption marker) and the restart-array
offset (left 0 where the C++ leaves it uninitialized; it is never read
in those cases). -/
structure LBlock where
  data : List Nat
  size : Nat
  restartOffset : Nat
deriving DecidableEq, Repr

/-- Block::NumRestarts: the trailing fixed32 of the block. -/
def numRestartsOf (blk : LBlock) : Nat :=
  decodeFixed32 blk.data (blk.size - 4)

/-- Block::Block: blocks smaller than 4 bytes are marked corrupt
(size 0); otherwise the trailing restart count is read and checked
against (size - 4) / 4, marking the block corrupt when it is too large,
and the restart-array offset is size - (1 + count) * 4 otherwise. -/
def mkBlock (data : List Nat) : LBlock :=
  let size := data.length
  if size < 4 then
    { data := data, size := 0, restartOffset := 0 }
  else
    let maxRestartsAllowed := (size - 4) / 4
    if maxRestartsAllowed < decodeFixed32 data (size - 4) then
      { data := data, size := 0, restartOffset := 0 }
    else
      { data := data, size := size
        restartOffset := size - (1 + decodeFixed32 data (size - 4)) * 4 }

/-- Iterator kinds returned by Block::NewIterator. -/
inductive BlockIterator where
  | errorIter (s : BStatus)
  | emptyIter
  | fullIter (bd : BlockData) (st : IterState)
deriving DecidableEq, Repr

/-- Block::NewIterator: an error iterator (Corruption) when the stored
size is below 4, an empty iterator when the restart count is 0, and a
full iterator over (data, restartOffset, count) otherwise. -/
def newIterator (blk : LBlock) : BlockIterator :=
  if blk.size < 4 then
    BlockIterator.errorIter BStatus.corruption
  else
    let numRestarts := numRestartsOf blk
    if numRestarts = 0 then
      BlockIterator.emptyIter
    else
      let bd : BlockData :=
        { data := blk.data, restarts := blk.restartOffset
          numRestarts := numRestarts }
      BlockIterator.fullIter bd (initIter bd)

/-- Abstract description of one block entry, used to state block
well-formedness: its byte offset, the position just past its header,
the three header fields, and the full (prefix-decompressed) key. -/
structure BEntry where
  offset : Nat
  hdrEnd : Nat
  shared : Nat
  nonShared : Nat
  valueLen : Nat
  key : List Nat
deriving DecidableEq, Repr, Inhabited

/-- Offset just past the entry (header, key suffix and value). -/
def BEntry.endOff (e : BEntry) : Nat := e.hdrEnd + e.nonShared + e.valueLen

/-- Entry i of a description (default entry out of range; the
well-formedness side conditions keep verified uses in range). -/
def entryAt (entries : List BEntry) (i : Nat) : BEntry := entries.getD i default

/-- chainOk bd off prevKey es: the entries es sit consecutively in
bd.data starting at offset off and ending exactly at the restart array;
each one decodes (via the code's own DecodeEntry) to its recorded header
fields, shares no more than the full previous key, and carries the key
reconstructed as prevKey[0..shared) ++ suffix, exactly as
ParseNextKey rebuilds it. -/
def chainOk (bd : BlockData) : Nat → List Nat → List BEntry → Prop
  | off, _, [] => off = bd.restarts
  | off, prevKey, e :: rest =>
    e.offset = off ∧
    decodeEntry bd.data off bd.restarts =
      some (e.shared, e.nonShared, e.valueLen, e.hdrEnd) ∧
    e.shared ≤ prevKey.length ∧
    e.key = prevKey.take e.shared ++ readBytes bd.data e.hdrEnd e.nonShared ∧
    chainOk bd e.endOff e.key rest

instance chainOkDec (bd : BlockData) :
    (off : Nat) → (pk : List Nat) → (es : List BEntry) →
    Decidable (chainOk bd off pk es)
  | off, _, [] => inferInstanceAs (Decidable (off = bd.restarts))
  | _, _, e :: rest =>
    haveI : Decidable (chainOk bd e.endOff e.key rest) :=
      chainOkDec bd e.endOff e.key rest
    inferInstanceAs (Decidable (_ ∧ _ ∧ _ ∧ _ ∧ _))

/-- Well-formed block as seen by a full iterator: the entries tile
[0, restarts) per chainOk, sizes fit in the machine widths the code
uses, and (when there are entries) the restart array stores the offsets
of designated entries — index 0 first, strictly increasing, each with
sharedLen 0 (spec: restart-first keys are full keys).  An empty block
has exactly one restart point (as the block builder emits). -/
def wfBlock (bd : BlockData) (entries : List BEntry) (ridx : List Nat) :
    Prop :=
  chainOk bd 0 [] entries ∧
  bd.restarts < 2 ^ 32 ∧
  1 ≤ bd.numRestarts ∧
  bd.numRestarts < 2 ^ 31 ∧
  ridx.length = bd.numRestarts ∧
  (entries = [] → bd.numRestarts = 1) ∧
  (entries ≠ [] →
    ridx.getD 0 0 = 0 ∧
    (∀ j, j < ridx.length - 1 → ridx.getD j 0 < ridx.getD (j + 1) 0) ∧
    (∀ j, j < ridx.length →
      ridx.getD j 0 < entries.length ∧
      getRestartPoint bd j = (entryAt entries (ridx.getD j 0)).offset ∧
      (entryAt entries (ridx.getD j 0)).shared = 0))

/-- Entries strictly ascending under the comparator. -/
def sortedEntries (cmp : List Nat → List Nat → Int)
    (entries : List BEntry) : Prop :=
  ∀ j, j < entries.length → ∀ i, i < j →
    cmp (entryAt entries i).key (entryAt entries j).key < 0

/-- Relation between a restart index and a cursor established by
ParseNextKey's update loop: the indexed restart is at or before the
cursor, and the next restart (if any) is at or past it. -/
def riInv (bd : BlockData) (ri cur : Nat) : Prop :=
  ri < bd.numRestarts ∧
  getRestartPoint bd ri ≤ cur ∧
  (ri + 1 < bd.numRestarts → cur ≤ getRestartPoint bd (ri + 1))

/-- Iterator state positioned on entry i: cursor at its offset, its
full key materialized, the value slice right after its key suffix, OK
status, and the restart index related to the cursor by riInv. -/
def atEntry (bd : BlockData) (entries : List BEntry) (i : Nat)
    (st : IterState) : Prop :=
  st.current = (entryAt entries i).offset ∧
  st.key = (entryAt entries i).key ∧
  st.valOff = (entryAt entries i).hdrEnd + (entryAt entries i).nonShared ∧
  st.valLen = (entryAt entries i).valueLen ∧
  st.status = BStatus.ok ∧
  riInv bd st.restartIndex (entryAt entries i).offset

/-- Key retained by the iterator just before parsing entry i during a
forward walk: empty before entry 0, the previous full key otherwise. -/
def prevKeyOf (entries : List BEntry) (i : Nat) : List Nat :=
  if i = 0 then [] else (entryAt entries (i - 1)).key

/-- State about to parse entry i: the parked value slice ends at the
entry's offset, the retained key supports the entry's shared prefix
(either it is the previous full key, or the entry shares nothing), the
status is clean and the restart index is at or before the entry. -/
def preAt (bd : BlockData) (entries : List BEntry) (i : Nat)
    (st : IterState) : Prop :=
  nextEntryOffset st = (entryAt entries i).offset ∧
  (st.key = prevKeyOf entries i ∨ (entryAt entries i).shared = 0) ∧
  st.status = BStatus.ok ∧
  st.restartIndex < bd.numRestarts ∧
  getRestartPoint bd st.restartIndex ≤ (entryAt entries i).offset

/-- Index of the first entry whose key is at or past target. -/
def firstGE (cmp : List Nat → List Nat → Int) (target : List Nat) :
    List BEntry → Option Nat
  | [] => none
  | e :: rest =>
    if 0 ≤ cmp e.key target then some 0
    else (firstGE cmp target rest).map (fun n => n + 1)

/-- Full key stored at restart point m of a described block (the key of
the entry the restart array designates). -/
def restartKey (entries : List BEntry) (ridx : List Nat) (m : Nat) :
    List Nat :=
  (entryAt entries (ridx.getD m 0)).key

/-- Amended restart-index consistency relation of a valid iterator
state: restart[restartIndex] ≤ cursor < restartArrayStart, and the
cursor is at or before the following restart point when one exists
(equality is attainable, so the bound against a real next restart is
not strict). -/
def riOk (bd : BlockData) (st : IterState) : Prop :=
  getRestartPoint bd st.restartIndex ≤ st.current ∧
  st.current < bd.restarts ∧
  (st.restartIndex + 1 < bd.numRestarts →
    st.current ≤ getRestartPoint bd (st.restartIndex + 1))

/-- BytewiseComparator semantics (leveldb's default comparator:
memcmp on the common prefix, then shorter-is-smaller), used to
instantiate the comparator-generic block theorems. -/
def byteCompare : List Nat → List Nat → Int
  | [], [] => 0
  | [], _ :: _ => -1
  | _ :: _, [] => 1
  | a :: as, b :: bs =>
    if a < b then -1 else if b < a then 1 else byteCompare as bs

/-- Result of ParseInternalKey of db/dbformat.h: user key, 56-bit
sequence number, and the raw low tag byte as the value type. -/
structure ParsedIK where
  userKey : List Nat
  seq : Nat
  vtype : Nat
deriving DecidableEq, Repr

/-- ParseInternalKey of db/dbformat.h: inputs shorter than 8 bytes are
rejected; the trailing 8 bytes decode as a fixed64 whose low byte is the
value type and whose high 56 bits are the sequence number; the user key
is the remaining prefix; the type byte must be at most
kTypeValue = 0x1. -/
def parseInternalKey (internalKey : List Nat) : Option ParsedIK :=
  let n := internalKey.length
  if n < 8 then none
  else
    let num := decodeFixed64 internalKey (n - 8)
    let c := num % 256
    if c ≤ 1 then
      some { userKey := internalKey.take (n - 8), seq := num / 256, vtype := c }
    else none

/-- Modelled from the spec: EncodeFixed64 of util/coding.h (the file is
not under src/); little-endian u64. -/
def encodeFixed64 (n : Nat) : List Nat :=
  [n % 256, n / 256 % 256, n / 65536 % 256, n / 16777216 % 256,
   n / 4294967296 % 256, n / 1099511627776 % 256,
   n / 281474976710656 % 256, n / 72057594037927936 % 256]

/-- Modelled from the spec: the canonical internal-key encoding
UK || fixed-little-endian-u64(SN << 8 | VT) (AppendInternalKey's body
lives in db/dbformat.cc, which is not under src/). -/
def encodeInternalKey (userKey : List Nat) (seq vtype : Nat) : List Nat :=
  userKey ++ encodeFixed64 (seq * 256 + vtype)

/-- Status values arising on the modelled env_posix.cc read paths. -/
inductive EStatus where
  | ok
  | ioError
deriving DecidableEq, Repr

/-- Result of a random-access read: the returned slice and status. -/
structure ReadResult where
  bytes : List Nat
  status : EStatus
deriving DecidableEq, Repr

/-- PosixMmapReadableFile::Read on a file whose mapped contents are
given: when offset + n overruns the mapped length the result is an
empty slice with IOError(EINVAL); otherwise exactly n mapped bytes
with OK. -/
def mmapRead (contents : List Nat) (offset n : Nat) : ReadResult :=
  if contents.length < offset + n then
    { bytes := [], status := EStatus.ioError }
  else
    { bytes := readBytes contents offset n, status := EStatus.ok }

/-- Modelled from the spec: POSIX pread on a regular file of the given
contents, success case — up to n bytes from offset, short or empty at
end of file, never failing. -/
def preadBytes (contents : List Nat) (offset n : Nat) : List Nat :=
  (contents.drop offset).take n

/-- PosixRandomAccessFile::Read with the underlying pread succeeding
(r ≥ 0): the slice is whatever pread returned and the status is OK. -/
def praRead (contents : List Nat) (offset n : Nat) : ReadResult :=
  { bytes := preadBytes contents offset n, status := EStatus.ok }

/-- Process-local lock bookkeeping of env_posix.cc: the
PosixLockTable's set of locked path names, plus the set of paths this
process holds an OS (fcntl) write lock on.  Paths are abstract
identifiers. -/
structure LockState where
  lockedFiles : List Nat
  osLocked : List Nat
deriving DecidableEq, Repr

/-- Result of PosixEnv::LockFile: a PosixFileLock (fd and name) or an
IOError. -/
inductive LockResult where
  | ok (fd : Nat) (name : Nat)
  | ioError
deriving DecidableEq, Repr

/-- PosixEnv::LockFile with the open(2) call succeeding and returning
fd: if the path is already in the process-local set, the new descriptor
is closed and IOError is returned with no state change; otherwise the
path is inserted and the OS lock attempted (osLockOk says whether the
non-blocking fcntl F_SETLK is granted) — on fcntl failure the path is
removed again (net: no state change) and IOError returned; on success
both registrations are held and a PosixFileLock is returned. -/
def lockFile (st : LockState) (fname fd : Nat) (osLockOk : Bool) :
    LockResult × LockState :=
  if fname ∈ st.lockedFiles then
    (LockResult.ioError, st)
  else if osLockOk then
    (LockResult.ok fd fname,
      { lockedFiles := fname :: st.lockedFiles
        osLocked := fname :: st.osLocked })
  else
    (LockResult.ioError, st)

/-- PosixEnv::UnlockFile: release the OS lock and the process-local
registration of the lock's path. -/
def unlockFile (st : LockState) (name : Nat) : LockState :=
  { lockedFiles := st.lockedFiles.filter (fun f => f ≠ name)
    osLocked := st.osLocked.filter (fun f => f ≠ name) }

/-- State of the background machinery of PosixEnv: the FIFO queue
(deque of Schedule entries, identified by job ids), the job the single
background thread is currently executing (it runs outside the mutex and
must finish before the thread dequeues again), and the list of finished
jobs in completion order. -/
structure BGState where
  queue : List Nat
  running : Option Nat
  done : List Nat
deriving DecidableEq, Repr

/-- Atomic events of the scheduler model: PosixEnv::Schedule pushes to
the back of the queue under the mutex; the single BGThread, when idle,
pops the front under the mutex and starts running it; finishing the
callable records it as done. -/
inductive BGEvent where
  | schedule (job : Nat)
  | dequeue
  | finish
deriving DecidableEq, Repr

/-- Single step of the background machinery; none when the event is not
enabled (the worker blocks on the condition variable when the queue is
empty, cannot dequeue while a callable runs, and cannot finish while
idle). -/
def bgStep (s : BGState) : BGEvent → Option BGState
  | BGEvent.schedule j => some { s with queue := s.queue ++ [j] }
  | BGEvent.dequeue =>
    match s.running, s.queue with
    | none, j :: rest => some { s with queue := rest, running := some j }
    | _, _ => none
  | BGEvent.finish =>
    match s.running with
    | some j => some { s with running := none, done := s.done ++ [j] }
    | none => none

/-- Run a whole event trace from a state. -/
def bgRun (s : BGState) : List BGEvent → Option BGState
  | [] => some s
  | e :: es =>
    match bgStep s e with
    | none => none
    | some s1 => bgRun s1 es

/-- Jobs submitted by a trace, in submission order. -/
def submitted : List BGEvent → List Nat
  | [] => []
  | BGEvent.schedule j :: es => j :: submitted es
  | _ :: es => submitted es

/-- Initial scheduler state: nothing queued, running or done. -/
def bgInit : BGState := { queue := [], running := none, done := [] }

/-- Concrete three-entry block used by witnesses and counterexamples:
keys "ab", "ac" (sharing one byte with "ab"), "b"; restart interval 2,
so the restart array is [0, 11] and the trailing count is 2.  The data
region is 16 bytes, the whole block 28. -/
def exBlock : BlockData :=
  { data := [0, 2, 1, 97, 98, 1] ++ [1, 1, 1, 99, 2] ++ [0, 1, 1, 98, 3] ++
      [0, 0, 0, 0, 11, 0, 0, 0] ++ [2, 0, 0, 0]
    restarts := 16
    numRestarts := 2 }

/-- Entry description of exBlock. -/
def exEntries : List BEntry :=
  [{ offset := 0, hdrEnd := 3, shared := 0, nonShared := 2, valueLen := 1,
     key := [97, 98] },
   { offset := 6, hdrEnd := 9, shared := 1, nonShared := 1, valueLen := 1,
     key := [97, 99] },
   { offset := 11, hdrEnd := 14, shared := 0, nonShared := 1, valueLen := 1,
     key := [98] }]

/-- Restart entries of exBlock: entries 0 and 2. -/
def exRidx : List Nat := [0, 2]

/-- Block whose entry region starts with three continuation bytes, so
the varint32 header cannot be decoded before the restart array at
offset 3: DecodeEntry fails on it. -/
def badHdrBlock : BlockData :=
  { data := [255, 255, 255] ++ [0, 0, 0, 0] ++ [1, 0, 0, 0]
    restarts := 3
    numRestarts := 1 }

/-- Block whose single entry declares nonShared = valueLen = 2^31
(five-byte varints), so their true sum 2^32 wraps to 0 in the u32
bounds check of DecodeEntry: data region 11 bytes, one restart point,
19 bytes in all. -/
def overflowBlock : BlockData :=
  { data := [0, 128, 128, 128, 128, 8, 128, 128, 128, 128, 8] ++
      [0, 0, 0, 0] ++ [1, 0, 0, 0]
    restarts := 11
    numRestarts := 1 }

end LevelDB
namespace LevelDB

lemma getVarintAux_bounds (data : List Nat) (limit : Nat) :
    ∀ fuel p shift result v p1,
      getVarintAux data limit fuel p shift result = some (v, p1) →
      p < p1 ∧ p1 ≤ limit := by
  intro fuel
  induction fuel with
  | zero =>
    intro p shift result v p1 h
    simp [getVarintAux] at h
  | succ n ih =>
    intro p shift result v p1 h
    simp only [getVarintAux] at h
    split at h
    · next hp =>
      split at h
      · have := ih _ _ _ _ _ h
        omega
      · simp only [Option.some.injEq, Prod.mk.injEq] at h
        omega
    · exact absurd h (by simp)

lemma getVarint32Ptr_bounds {data : List Nat} {p limit v p1 : Nat}
    (h : getVarint32Ptr data p limit = some (v, p1)) :
    p < p1 ∧ p1 ≤ limit :=
  getVarintAux_bounds data limit 5 p 0 0 v p1 h

lemma decodeEntryHdr_bounds {data : List Nat} {p limit sh ns vl q : Nat}
    (h : decodeEntryHdr data p limit = some (sh, ns, vl, q)) :
    p + 3 ≤ q ∧ (3 ≤ limit - p → q ≤ limit) := by
  simp only [decodeEntryHdr] at h
  split at h
  · simp only [Option.some.injEq, Prod.mk.injEq] at h
    omega
  · split at h
    · exact absurd h (by simp)
    · next v1 q1 hv1 =>
      split at h
      · exact absurd h (by simp)
      · next v2 q2 hv2 =>
        split at h
        · exact absurd h (by simp)
        · next v3 q3 hv3 =>
          simp only [Option.some.injEq, Prod.mk.injEq] at h
          have b1 := getVarint32Ptr_bounds hv1
          have b2 := getVarint32Ptr_bounds hv2
          have b3 := getVarint32Ptr_bounds hv3
          omega

lemma decodeEntry_bounds {data : List Nat} {p limit sh ns vl q : Nat}
    (h : decodeEntry data p limit = some (sh, ns, vl, q)) :
    p + 3 ≤ q ∧ q ≤ limit := by
  unfold decodeEntry at h
  split at h
  · exact absurd h (by simp)
  · next h3 =>
    split at h
    · exact absurd h (by simp)
    · next sh2 ns2 vl2 q2 hhdr =>
      split at h
      · exact absurd h (by simp)
      · simp only [Option.some.injEq, Prod.mk.injEq] at h
        obtain ⟨rfl, rfl, rfl, rfl⟩ := h
        have hb := decodeEntryHdr_bounds hhdr
        refine ⟨hb.1, hb.2 (by omega)⟩

lemma updateRIAux_spec (bd : BlockData) (cur : Nat) :
    ∀ fuel ri, ri < bd.numRestarts → getRestartPoint bd ri ≤ cur →
      bd.numRestarts ≤ fuel + ri + 1 →
      riInv bd (updateRIAux bd cur fuel ri) cur := by
  intro fuel
  induction fuel with
  | zero =>
    intro ri h1 h2 hf
    rw [updateRIAux]
    refine ⟨h1, h2, fun hlt => ?_⟩
    omega
  | succ f ih =>
    intro ri h1 h2 hf
    rw [updateRIAux]
    split
    · next hc =>
      exact ih (ri + 1) hc.1 (le_of_lt hc.2) (by omega)
    · next hc =>
      push_neg at hc
      exact ⟨h1, h2, fun hlt => hc hlt⟩

lemma updateRestartIndex_spec (bd : BlockData) (cur ri : Nat)
    (h1 : ri < bd.numRestarts) (h2 : getRestartPoint bd ri ≤ cur) :
    riInv bd (updateRestartIndex bd cur ri) cur :=
  updateRIAux_spec bd cur bd.numRestarts ri h1 h2 (by omega)

lemma prevBackupAux_none (bd : BlockData) (original : Nat) :
    ∀ fuel ri, ri < fuel →
      (∀ j, j ≤ ri → original ≤ getRestartPoint bd j) →
      prevBackupAux bd original fuel ri = none := by
  intro fuel
  induction fuel with
  | zero =>
    intro ri hf
    omega
  | succ f ih =>
    intro ri hf h
    rw [prevBackupAux]
    rw [if_pos (h ri le_rfl)]
    split
    · rfl
    · next hne =>
      exact ih (ri - 1) (by omega) (fun j hj => h j (by omega))

lemma prevBackup_none (bd : BlockData) (original ri : Nat)
    (h : ∀ j, j ≤ ri → original ≤ getRestartPoint bd j) :
    prevBackup bd original ri = none :=
  prevBackupAux_none bd original (ri + 1) ri (by omega) h

lemma prevBackupAux_some (bd : BlockData) (original : Nat)
    (h0 : getRestartPoint bd 0 < original) :
    ∀ fuel ri, ri < fuel →
      ∃ r2, prevBackupAux bd original fuel ri = some r2 ∧ r2 ≤ ri ∧
        getRestartPoint bd r2 < original := by
  intro fuel
  induction fuel with
  | zero =>
    intro ri hf
    omega
  | succ f ih =>
    intro ri hf
    rw [prevBackupAux]
    split
    · next hge =>
      split
      · next h0eq =>
        subst h0eq
        omega
      · next hne =>
        obtain ⟨r2, hr, hle, hlt⟩ := ih (ri - 1) (by omega)
        exact ⟨r2, hr, by omega, hlt⟩
    · next hlt => exact ⟨ri, rfl, le_rfl, by omega⟩

lemma prevBackup_some (bd : BlockData) (original ri : Nat)
    (h0 : getRestartPoint bd 0 < original) :
    ∃ r2, prevBackup bd original ri = some r2 ∧ r2 ≤ ri ∧
      getRestartPoint bd r2 < original :=
  prevBackupAux_some bd original h0 (ri + 1) ri (by omega)

instance wfBlockDec (bd : BlockData) (entries : List BEntry)
    (ridx : List Nat) : Decidable (wfBlock bd entries ridx) := by
  unfold wfBlock
  infer_instance

instance sortedEntriesDec (cmp : List Nat → List Nat → Int)
    (entries : List BEntry) : Decidable (sortedEntries cmp entries) := by
  unfold sortedEntries
  infer_instance

instance riInvDec (bd : BlockData) (ri cur : Nat) :
    Decidable (riInv bd ri cur) := by
  unfold riInv
  infer_instance

instance atEntryDec (bd : BlockData) (entries : List BEntry) (i : Nat)
    (st : IterState) : Decidable (atEntry bd entries i st) := by
  unfold atEntry
  infer_instance

end LevelDB
namespace LevelDB

lemma entryAt_cons_zero (e : BEntry) (rest : List BEntry) :
    entryAt (e :: rest) 0 = e := rfl

lemma entryAt_cons_succ (e : BEntry) (rest : List BEntry) (j : Nat) :
    entryAt (e :: rest) (j + 1) = entryAt rest j := rfl

lemma chainOk_get (bd : BlockData) :
    ∀ (es : List BEntry) (off : Nat) (pk : List Nat),
      chainOk bd off pk es → ∀ i, i < es.length →
        ((entryAt es i).offset =
          if i = 0 then off else (entryAt es (i - 1)).endOff) ∧
        decodeEntry bd.data (entryAt es i).offset bd.restarts =
          some ((entryAt es i).shared, (entryAt es i).nonShared,
            (entryAt es i).valueLen, (entryAt es i).hdrEnd) ∧
        (entryAt es i).shared ≤
          (if i = 0 then pk else (entryAt es (i - 1)).key).length ∧
        (entryAt es i).key =
          (if i = 0 then pk else (entryAt es (i - 1)).key).take
              (entryAt es i).shared ++
            readBytes bd.data (entryAt es i).hdrEnd
              (entryAt es i).nonShared := by
  intro es
  induction es with
  | nil =>
    intro off pk h i hi
    simp at hi
  | cons e rest ih =>
    intro off pk h i hi
    obtain ⟨hoff, hdec, hsh, hkey, hrest⟩ := h
    match i with
    | 0 =>
      refine ⟨?_, ?_, ?_, ?_⟩ <;> simp [entryAt_cons_zero, hoff, hdec, hsh, hkey]
    | Nat.succ j =>
      have hj : j < rest.length := by simpa using hi
      have H := ih e.endOff e.key hrest j hj
      by_cases hj0 : j = 0
      · subst hj0
        simpa [entryAt_cons_succ, entryAt_cons_zero] using H
      · obtain ⟨k, rfl⟩ := Nat.exists_eq_succ_of_ne_zero hj0
        simpa [entryAt_cons_succ] using H

lemma chainOk_last (bd : BlockData) :
    ∀ (es : List BEntry) (off : Nat) (pk : List Nat),
      chainOk bd off pk es → es ≠ [] →
      (entryAt es (es.length - 1)).endOff = bd.restarts := by
  intro es
  induction es with
  | nil => intro off pk h hne; exact absurd rfl hne
  | cons e rest ih =>
    intro off pk h hne
    obtain ⟨hoff, hdec, hsh, hkey, hrest⟩ := h
    match rest with
    | [] =>
      simpa [entryAt_cons_zero, chainOk] using hrest
    | r :: rest2 =>
      have := ih e.endOff e.key hrest (by simp)
      simpa [entryAt_cons_succ] using this

lemma chainOk_nil_restarts (bd : BlockData) (pk : List Nat)
    (h : chainOk bd 0 pk []) : bd.restarts = 0 := by
  simpa [chainOk] using h.symm

end LevelDB
namespace LevelDB

section BlockWF

variable {bd : BlockData} {entries : List BEntry} {ridx : List Nat}

lemma wf_decode (hwf : wfBlock bd entries ridx) {i : Nat}
    (hi : i < entries.length) :
    decodeEntry bd.data (entryAt entries i).offset bd.restarts =
      some ((entryAt entries i).shared, (entryAt entries i).nonShared,
        (entryAt entries i).valueLen, (entryAt entries i).hdrEnd) :=
  (chainOk_get bd entries 0 [] hwf.1 i hi).2.1

lemma wf_offset_zero (hwf : wfBlock bd entries ridx)
    (h0 : 0 < entries.length) : (entryAt entries 0).offset = 0 := by
  have h := (chainOk_get bd entries 0 [] hwf.1 0 h0).1
  simpa using h

lemma wf_offset_succ (hwf : wfBlock bd entries ridx) {i : Nat}
    (hi : i + 1 < entries.length) :
    (entryAt entries (i + 1)).offset = (entryAt entries i).endOff := by
  have h := (chainOk_get bd entries 0 [] hwf.1 (i + 1) hi).1
  simpa using h

lemma wf_shared_le (hwf : wfBlock bd entries ridx) {i : Nat}
    (hi : i < entries.length) :
    (entryAt entries i).shared ≤ (prevKeyOf entries i).length := by
  have h := (chainOk_get bd entries 0 [] hwf.1 i hi).2.2.1
  simpa [prevKeyOf] using h

lemma wf_key_eq (hwf : wfBlock bd entries ridx) {i : Nat}
    (hi : i < entries.length) :
    (entryAt entries i).key =
      (prevKeyOf entries i).take (entryAt entries i).shared ++
        readBytes bd.data (entryAt entries i).hdrEnd
          (entryAt entries i).nonShared := by
  have h := (chainOk_get bd entries 0 [] hwf.1 i hi).2.2.2
  simpa [prevKeyOf] using h

lemma wf_hdr_bounds (hwf : wfBlock bd entries ridx) {i : Nat}
    (hi : i < entries.length) :
    (entryAt entries i).offset + 3 ≤ (entryAt entries i).hdrEnd ∧
      (entryAt entries i).hdrEnd ≤ bd.restarts :=
  decodeEntry_bounds (wf_decode hwf hi)

lemma wf_endOff_ge (hwf : wfBlock bd entries ridx) {i : Nat}
    (hi : i < entries.length) :
    (entryAt entries i).offset + 3 ≤ (entryAt entries i).endOff := by
  have h := (wf_hdr_bounds hwf hi).1
  unfold BEntry.endOff
  omega

lemma wf_off_lt_restarts (hwf : wfBlock bd entries ridx) {i : Nat}
    (hi : i < entries.length) :
    (entryAt entries i).offset < bd.restarts := by
  have h := wf_hdr_bounds hwf hi
  omega

lemma wf_off_step (hwf : wfBlock bd entries ridx) {i : Nat}
    (hi : i + 1 < entries.length) :
    (entryAt entries i).offset + 3 ≤ (entryAt entries (i + 1)).offset := by
  rw [wf_offset_succ hwf hi]
  exact wf_endOff_ge hwf (by omega)

lemma wf_off_mono (hwf : wfBlock bd entries ridx) {i j : Nat}
    (hij : i < j) (hj : j < entries.length) :
    (entryAt entries i).offset < (entryAt entries j).offset := by
  induction j with
  | zero => omega
  | succ k ih =>
    have hs := wf_off_step hwf hj
    rcases Nat.lt_or_ge i k with hik | hik
    · have := ih hik (by omega)
      omega
    · have : i = k := by omega
      subst this
      omega

lemma wf_off_lower (hwf : wfBlock bd entries ridx) :
    ∀ i, i < entries.length → 3 * i ≤ (entryAt entries i).offset := by
  intro i
  induction i with
  | zero => omega
  | succ k ih =>
    intro hk
    have h1 := ih (by omega)
    have h2 := wf_off_step hwf hk
    omega

lemma wf_len_le (hwf : wfBlock bd entries ridx) :
    entries.length ≤ bd.restarts := by
  rcases Nat.eq_zero_or_pos entries.length with h0 | h0
  · omega
  · have hl := wf_off_lower hwf (entries.length - 1) (by omega)
    have he := wf_endOff_ge hwf (i := entries.length - 1) (by omega)
    have hle := wf_hdr_bounds hwf (i := entries.length - 1) (by omega)
    have := wf_off_lt_restarts hwf (i := entries.length - 1) (by omega)
    omega

lemma wf_endOff_le (hwf : wfBlock bd entries ridx) {i : Nat}
    (hi : i < entries.length) :
    (entryAt entries i).endOff ≤ bd.restarts := by
  rcases Nat.lt_or_ge (i + 1) entries.length with h | h
  · have := wf_offset_succ hwf h
    have := wf_off_lt_restarts hwf h
    omega
  · have hne : entries ≠ [] := by
      intro hnil
      rw [hnil] at hi
      simp at hi
    have hlast := chainOk_last bd entries 0 [] hwf.1 hne
    have : i = entries.length - 1 := by omega
    subst this
    omega

lemma wf_endOff_eq_restarts (hwf : wfBlock bd entries ridx)
    (hne : entries ≠ []) :
    (entryAt entries (entries.length - 1)).endOff = bd.restarts :=
  chainOk_last bd entries 0 [] hwf.1 hne

lemma wf_restart_facts (hwf : wfBlock bd entries ridx)
    (hne : entries ≠ []) {j : Nat} (hj : j < bd.numRestarts) :
    ridx.getD j 0 < entries.length ∧
      getRestartPoint bd j = (entryAt entries (ridx.getD j 0)).offset ∧
      (entryAt entries (ridx.getD j 0)).shared = 0 := by
  obtain ⟨hchain, hr32, hn1, hn31, hlen, hemp, hre⟩ := hwf
  exact (hre hne).2.2 j (by omega)

lemma wf_ridx_zero (hwf : wfBlock bd entries ridx) (hne : entries ≠ []) :
    ridx.getD 0 0 = 0 := by
  obtain ⟨hchain, hr32, hn1, hn31, hlen, hemp, hre⟩ := hwf
  exact (hre hne).1

lemma wf_ridx_mono (hwf : wfBlock bd entries ridx) (hne : entries ≠ [])
    {j k : Nat} (hjk : j < k) (hk : k < bd.numRestarts) :
    ridx.getD j 0 < ridx.getD k 0 := by
  obtain ⟨hchain, hr32, hn1, hn31, hlen, hemp, hre⟩ := hwf
  have hstep := (hre hne).2.1
  clear hre
  induction k with
  | zero => omega
  | succ m ih =>
    have hs := hstep m (by omega)
    rcases Nat.lt_or_ge j m with hjm | hjm
    · have := ih hjm (by omega)
      omega
    · have : j = m := by omega
      subst this
      omega

lemma wf_grp (hwf : wfBlock bd entries ridx) (hne : entries ≠ [])
    {j : Nat} (hj : j < bd.numRestarts) :
    getRestartPoint bd j = (entryAt entries (ridx.getD j 0)).offset :=
  (wf_restart_facts hwf hne hj).2.1

lemma wf_grp_zero (hwf : wfBlock bd entries ridx) (hne : entries ≠ []) :
    getRestartPoint bd 0 = 0 := by
  have h1 := wf_grp hwf hne (j := 0) (by exact hwf.2.2.1)
  rw [h1, wf_ridx_zero hwf hne]
  exact wf_offset_zero hwf (by cases entries <;> simp_all)

lemma wf_grp_mono (hwf : wfBlock bd entries ridx) (hne : entries ≠ [])
    {j k : Nat} (hjk : j < k) (hk : k < bd.numRestarts) :
    getRestartPoint bd j < getRestartPoint bd k := by
  rw [wf_grp hwf hne (by omega), wf_grp hwf hne hk]
  exact wf_off_mono hwf (wf_ridx_mono hwf hne hjk hk)
    (wf_restart_facts hwf hne hk).1

end BlockWF

end LevelDB
namespace LevelDB

section BlockStep

variable {bd : BlockData} {entries : List BEntry} {ridx : List Nat}

lemma atEntry_nextEntryOffset (hwf : wfBlock bd entries ridx) {i : Nat}
    (hi : i < entries.length) {st : IterState}
    (hat : atEntry bd entries i st) :
    nextEntryOffset st = (entryAt entries i).endOff := by
  obtain ⟨hc, hk, hvo, hvl, hs, hri⟩ := hat
  have hle := wf_endOff_le hwf hi
  have hr32 := hwf.2.1
  unfold nextEntryOffset
  rw [hvo, hvl]
  unfold BEntry.endOff at hle ⊢
  rw [Nat.mod_eq_of_lt (by omega)]

lemma parseNextKey_step (hwf : wfBlock bd entries ridx) {i : Nat}
    (hi : i < entries.length) {st : IterState}
    (hpre : preAt bd entries i st) :
    (parseNextKey bd st).1 = true ∧
      atEntry bd entries i (parseNextKey bd st).2 := by
  obtain ⟨hoff, hkey, hst, hrilt, hrile⟩ := hpre
  have hofflt := wf_off_lt_restarts hwf hi
  simp only [parseNextKey]
  rw [hoff]
  split
  · omega
  · split
    · next heq =>
      rw [wf_decode hwf hi] at heq
      exact absurd heq (by simp)
    · next sh ns vl q heq =>
      rw [wf_decode hwf hi] at heq
      simp only [Option.some.injEq, Prod.mk.injEq] at heq
      obtain ⟨rfl, rfl, rfl, rfl⟩ := heq
      have hshle := wf_shared_le hwf hi
      split
      · next hlt =>
        exfalso
        rcases hkey with hk | hk
        · rw [hk] at hlt
          omega
        · rw [hk] at hlt
          omega
      · next hge =>
        refine ⟨rfl, rfl, ?_, rfl, rfl, hst, ?_⟩
        · rcases hkey with hk | hk
          · rw [hk, ← wf_key_eq hwf hi]
          · rw [wf_key_eq hwf hi, hk]
            simp
        · exact updateRestartIndex_spec bd (entryAt entries i).offset
            st.restartIndex hrilt hrile

lemma atEntry_preAt_succ (hwf : wfBlock bd entries ridx) {i : Nat}
    {st : IterState} (hat : atEntry bd entries i st)
    (hi : i + 1 < entries.length) :
    preAt bd entries (i + 1) st := by
  have hoff := atEntry_nextEntryOffset hwf (by omega) hat
  obtain ⟨hc, hk, hvo, hvl, hs, hri⟩ := hat
  refine ⟨?_, Or.inl ?_, hs, hri.1, ?_⟩
  · rw [hoff, wf_offset_succ hwf hi]
  · unfold prevKeyOf
    simp [hk]
  · have h1 := hri.2.1
    have h2 := wf_off_step hwf hi
    omega

lemma parseNextKey_end (hwf : wfBlock bd entries ridx) {st : IterState}
    (hat : atEntry bd entries (entries.length - 1) st)
    (hne : entries ≠ []) :
    parseNextKey bd st =
      (false,
        { st with current := bd.restarts, restartIndex := bd.numRestarts }) := by
  have hlen : 0 < entries.length := by cases entries <;> simp_all
  have hoff := atEntry_nextEntryOffset hwf (by omega) hat
  rw [wf_endOff_eq_restarts hwf hne] at hoff
  simp only [parseNextKey]
  rw [hoff, if_pos le_rfl]

lemma nextOp_at (hwf : wfBlock bd entries ridx) {i : Nat} {st : IterState}
    (hat : atEntry bd entries i st) (hi : i + 1 < entries.length) :
    atEntry bd entries (i + 1) (nextOp bd st) :=
  (parseNextKey_step hwf hi (atEntry_preAt_succ hwf hat hi)).2

lemma nextOp_end (hwf : wfBlock bd entries ridx) {st : IterState}
    (hat : atEntry bd entries (entries.length - 1) st)
    (hne : entries ≠ []) :
    (nextOp bd st).current = bd.restarts ∧
      (nextOp bd st).status = BStatus.ok ∧
      IterState.valid bd (nextOp bd st) = false := by
  unfold nextOp
  rw [parseNextKey_end hwf hat hne]
  have hs := hat.2.2.2.2.1
  refine ⟨rfl, hs, ?_⟩
  simp [IterState.valid]

lemma seekToRestartPoint_preAt (hwf : wfBlock bd entries ridx)
    (hne : entries ≠ []) {j : Nat} (hj : j < bd.numRestarts)
    {st : IterState} (hst : st.status = BStatus.ok) :
    preAt bd entries (ridx.getD j 0) (seekToRestartPoint bd j st) := by
  obtain ⟨hlt, hgrp, hsh⟩ := wf_restart_facts hwf hne hj
  have hofflt := wf_off_lt_restarts hwf hlt
  have hr32 := hwf.2.1
  refine ⟨?_, Or.inr hsh, hst, hj, ?_⟩
  · unfold seekToRestartPoint nextEntryOffset
    simp only
    rw [hgrp, Nat.add_zero, Nat.mod_eq_of_lt (by omega)]
  · unfold seekToRestartPoint
    simp only
    omega

end BlockStep

end LevelDB
namespace LevelDB

section BlockScan

variable {bd : BlockData} {entries : List BEntry} {ridx : List Nat}

lemma scanUntil_spec (hwf : wfBlock bd entries ridx) {a t : Nat}
    (ha : a ≤ t) (ht : t < entries.length) {stop : Nat}
    (hhit : stop ≤ (entryAt entries t).endOff)
    (hbefore : ∀ j, a ≤ j → j < t → (entryAt entries j).endOff < stop)
    {st : IterState} (hpre : preAt bd entries a st)
    {fuel : Nat} (hfuel : t - a < fuel) :
    atEntry bd entries t (scanUntil bd stop fuel st) := by
  induction fuel generalizing a st with
  | zero => omega
  | succ f ih =>
    have hstep := parseNextKey_step hwf (by omega) hpre
    have hend : nextEntryOffset (parseNextKey bd st).2 =
        (entryAt entries a).endOff :=
      atEntry_nextEntryOffset hwf (by omega) hstep.2
    rw [scanUntil]
    rcases Nat.eq_or_lt_of_le ha with rfl | halt
    · rw [if_neg]
      · exact hstep.2
      · rw [hend]
        intro hcon
        omega
    · rw [if_pos ⟨hstep.1, by rw [hend]; exact hbefore a le_rfl halt⟩]
      exact ih (a := a + 1) (by omega)
        (fun j hj1 hj2 => hbefore j (by omega) hj2)
        (atEntry_preAt_succ hwf hstep.2 (by omega)) (by omega)

lemma seekLinear_spec (hwf : wfBlock bd entries ridx)
    {c : List Nat → List Nat → Int} {t : List Nat} {a : Nat}
    {s : IterState}
    (hpre : (a < entries.length ∧ preAt bd entries a s) ∨
      (a = entries.length ∧ bd.restarts ≤ nextEntryOffset s ∧
        s.status = BStatus.ok))
    {u : Nat} (hfuel : entries.length - a < u) :
    (∃ j, a ≤ j ∧ j < entries.length ∧
        atEntry bd entries j (seekLinear bd c t u s) ∧
        0 ≤ c (entryAt entries j).key t ∧
        (∀ k, a ≤ k → k < j → c (entryAt entries k).key t < 0)) ∨
    ((∀ k, a ≤ k → k < entries.length →
        c (entryAt entries k).key t < 0) ∧
      (seekLinear bd c t u s).current = bd.restarts ∧
      (seekLinear bd c t u s).status = BStatus.ok ∧
      (seekLinear bd c t u s).restartIndex = bd.numRestarts) := by
  induction u generalizing a s with
  | zero => omega
  | succ f ih =>
    rw [seekLinear]
    rcases hpre with ⟨ha, hpre⟩ | ⟨ha, hoff, hok⟩
    · have hstep := parseNextKey_step hwf ha hpre
      rw [if_neg (by rw [hstep.1]; simp)]
      by_cases hcmp : 0 ≤ c (parseNextKey bd s).2.key t
      · rw [if_pos hcmp]
        have hkey := hstep.2.2.1
        refine Or.inl ⟨a, le_rfl, ha, hstep.2, ?_, fun k hk1 hk2 => by omega⟩
        rwa [hkey] at hcmp
      · rw [if_neg hcmp]
        have hkeylt : c (entryAt entries a).key t < 0 := by
          rw [← hstep.2.2.1]
          omega
        rcases Nat.lt_or_ge (a + 1) entries.length with ha1 | ha1
        · have hrec := ih
            (a := a + 1)
            (Or.inl ⟨ha1, atEntry_preAt_succ hwf hstep.2 ha1⟩) (by omega)
          rcases hrec with ⟨j, hj1, hj2, hat, hge, hpref⟩ | ⟨hall, hrest⟩
          · refine Or.inl ⟨j, by omega, hj2, hat, hge, fun k hk1 hk2 => ?_⟩
            rcases Nat.eq_or_lt_of_le hk1 with rfl | hk
            · exact hkeylt
            · exact hpref k (by omega) hk2
          · refine Or.inr ⟨fun k hk1 hk2 => ?_, hrest⟩
            rcases Nat.eq_or_lt_of_le hk1 with rfl | hk
            · exact hkeylt
            · exact hall k (by omega) hk2
        · have hane : entries ≠ [] := by
            intro hnil
            rw [hnil] at ha
            simp at ha
          have haeq : a = entries.length - 1 := by omega
          subst haeq
          have hlast : bd.restarts ≤ nextEntryOffset (parseNextKey bd s).2 := by
            rw [atEntry_nextEntryOffset hwf (by omega) hstep.2]
            rw [wf_endOff_eq_restarts hwf hane]
          have hok2 : (parseNextKey bd s).2.status = BStatus.ok :=
            hstep.2.2.2.2.2.1
          have hrec := ih (a := entries.length)
            (Or.inr ⟨rfl, hlast, hok2⟩) (by omega)
          rcases hrec with ⟨j, hj1, hj2, hrest⟩ | ⟨hall, hrest⟩
          · omega
          · refine Or.inr ⟨fun k hk1 hk2 => ?_, hrest⟩
            have : k = entries.length - 1 := by omega
            subst this
            exact hkeylt
    · have hval : parseNextKey bd s =
          (false,
            { s with
              current := bd.restarts
              restartIndex := bd.numRestarts }) := by
        simp only [parseNextKey]
        rw [if_pos hoff]
      rw [if_pos (by rw [hval])]
      rw [hval]
      exact Or.inr ⟨fun k hk1 hk2 => by omega, rfl, hok, rfl⟩

end BlockScan

end LevelDB
namespace LevelDB

section BlockOps

variable {bd : BlockData} {entries : List BEntry} {ridx : List Nat}

lemma entries_length_pos (hne : entries ≠ []) : 0 < entries.length := by
  cases entries <;> simp_all

lemma seekToFirst_at (hwf : wfBlock bd entries ridx) (hne : entries ≠ [])
    {st : IterState} (hok : st.status = BStatus.ok) :
    atEntry bd entries 0 (seekToFirst bd st) := by
  have h0 : (0 : Nat) < bd.numRestarts := hwf.2.2.1
  have hpre := seekToRestartPoint_preAt hwf hne (j := 0) h0 hok
  rw [wf_ridx_zero hwf hne] at hpre
  exact (parseNextKey_step hwf (entries_length_pos hne) hpre).2

lemma parseNextKey_zero (bd : BlockData) (st : IterState)
    (h : bd.restarts = 0) :
    parseNextKey bd st =
      (false,
        { st with
          current := bd.restarts
          restartIndex := bd.numRestarts }) := by
  simp only [parseNextKey]
  rw [if_pos (by omega)]

lemma seekToFirst_empty (hwf : wfBlock bd entries ridx)
    (hemp : entries = []) {st : IterState} (hok : st.status = BStatus.ok) :
    (seekToFirst bd st).current = bd.restarts ∧
      (seekToFirst bd st).status = BStatus.ok ∧
      (seekToFirst bd st).restartIndex = bd.numRestarts ∧
      IterState.valid bd (seekToFirst bd st) = false := by
  have hr0 : bd.restarts = 0 := by
    subst hemp
    exact chainOk_nil_restarts bd [] hwf.1
  unfold seekToFirst
  rw [parseNextKey_zero bd _ hr0]
  refine ⟨rfl, hok, rfl, ?_⟩
  simp [IterState.valid, hr0]

lemma u32_pred (n : Nat) (h1 : 1 ≤ n) (h2 : n < 2 ^ 32) :
    (n + (2 ^ 32 - 1)) % 2 ^ 32 = n - 1 := by
  omega

lemma seekToLast_at (hwf : wfBlock bd entries ridx) (hne : entries ≠ [])
    {st : IterState} (hok : st.status = BStatus.ok) :
    atEntry bd entries (entries.length - 1) (seekToLast bd st) := by
  have hn1 : 1 ≤ bd.numRestarts := hwf.2.2.1
  have hn31 : bd.numRestarts < 2 ^ 31 := hwf.2.2.2.1
  have hpos := entries_length_pos hne
  have hrw : (bd.numRestarts + (2 ^ 32 - 1)) % 2 ^ 32 = bd.numRestarts - 1 :=
    u32_pred bd.numRestarts hn1 (by omega)
  have hjlt : bd.numRestarts - 1 < bd.numRestarts := by omega
  have hfacts := wf_restart_facts hwf hne hjlt
  have hlen := wf_len_le hwf
  unfold seekToLast
  rw [hrw]
  refine scanUntil_spec hwf (a := ridx.getD (bd.numRestarts - 1) 0)
    (t := entries.length - 1) (by omega) (by omega) ?_ ?_
    (seekToRestartPoint_preAt hwf hne hjlt hok) (by omega)
  · rw [wf_endOff_eq_restarts hwf hne]
  · intro j hj1 hj2
    have heq := wf_offset_succ hwf (i := j) (by omega)
    have hlt := wf_off_lt_restarts hwf (i := j + 1) (by omega)
    omega

lemma scanUntil_stop (bd : BlockData) (stop fuel : Nat) (st st2 : IterState)
    (h : parseNextKey bd st = (false, st2)) :
    scanUntil bd stop (fuel + 1) st = st2 := by
  rw [scanUntil, h]
  rw [if_neg (by simp)]

lemma seekToLast_empty (hwf : wfBlock bd entries ridx)
    (hemp : entries = []) {st : IterState} (hok : st.status = BStatus.ok) :
    (seekToLast bd st).current = bd.restarts ∧
      (seekToLast bd st).status = BStatus.ok ∧
      (seekToLast bd st).restartIndex = bd.numRestarts ∧
      IterState.valid bd (seekToLast bd st) = false := by
  have hr0 : bd.restarts = 0 := by
    subst hemp
    exact chainOk_nil_restarts bd [] hwf.1
  have hn1 : 1 ≤ bd.numRestarts := hwf.2.2.1
  have hn31 : bd.numRestarts < 2 ^ 31 := hwf.2.2.2.1
  have hrw : (bd.numRestarts + (2 ^ 32 - 1)) % 2 ^ 32 = bd.numRestarts - 1 :=
    u32_pred bd.numRestarts hn1 (by omega)
  have hs2 := scanUntil_stop bd bd.restarts bd.restarts
    (seekToRestartPoint bd (bd.numRestarts - 1) st) _
    (parseNextKey_zero bd (seekToRestartPoint bd (bd.numRestarts - 1) st)
      hr0)
  unfold seekToLast
  rw [hrw, hs2]
  refine ⟨rfl, hok, rfl, ?_⟩
  simp [IterState.valid, hr0]

lemma prevOp_at (hwf : wfBlock bd entries ridx) {i : Nat}
    (hi : i < entries.length) (h0 : 0 < i) {st : IterState}
    (hat : atEntry bd entries i st) :
    atEntry bd entries (i - 1) (prevOp bd st) := by
  have hne : entries ≠ [] := by
    intro hnil
    rw [hnil] at hi
    simp at hi
  obtain ⟨hc, hk, hvo, hvl, hs, hri⟩ := hat
  have hoffpos : 0 < (entryAt entries i).offset := by
    have := wf_offset_zero hwf (entries_length_pos hne)
    have := wf_off_mono hwf h0 hi
    omega
  have hgrp0 : getRestartPoint bd 0 < (entryAt entries i).offset := by
    rw [wf_grp_zero hwf hne]
    exact hoffpos
  obtain ⟨r2, hr2eq, hr2le, hr2lt⟩ :=
    prevBackup_some bd (entryAt entries i).offset st.restartIndex hgrp0
  have hr2num : r2 < bd.numRestarts := by
    have := hri.1
    omega
  have hfacts := wf_restart_facts hwf hne hr2num
  have hlen := wf_len_le hwf
  have halt : ridx.getD r2 0 < i := by
    by_contra hcon
    push_neg at hcon
    rcases Nat.eq_or_lt_of_le hcon with heq | hlt
    · rw [wf_grp hwf hne hr2num, ← heq] at hr2lt
      omega
    · have := wf_off_mono hwf hlt hfacts.1
      rw [wf_grp hwf hne hr2num] at hr2lt
      omega
  unfold prevOp
  rw [hc]
  simp only [hr2eq]
  refine scanUntil_spec hwf (a := ridx.getD r2 0) (t := i - 1)
    (by omega) (by omega) ?_ ?_
    (seekToRestartPoint_preAt hwf hne hr2num hs) (by omega)
  · rw [← wf_offset_succ hwf (i := i - 1) (by omega)]
    have : i - 1 + 1 = i := by omega
    rw [this]
  · intro j hj1 hj2
    have heq := wf_offset_succ hwf (i := j) (by omega)
    have := wf_off_mono hwf (i := j + 1) (j := i) (by omega) hi
    omega

lemma prevOp_begin (hwf : wfBlock bd entries ridx) (hne : entries ≠ [])
    {st : IterState} (hat : atEntry bd entries 0 st) :
    (prevOp bd st).current = bd.restarts ∧
      (prevOp bd st).status = BStatus.ok ∧
      (prevOp bd st).restartIndex = bd.numRestarts ∧
      IterState.valid bd (prevOp bd st) = false := by
  obtain ⟨hc, hk, hvo, hvl, hs, hri⟩ := hat
  have hzero : (entryAt entries 0).offset = 0 :=
    wf_offset_zero hwf (entries_length_pos hne)
  have hnone : prevBackup bd st.current st.restartIndex = none := by
    apply prevBackup_none
    intro j hj
    rw [hc, hzero]
    omega
  unfold prevOp
  simp only [hnone]
  simp [IterState.valid, hs]

end BlockOps

end LevelDB
namespace LevelDB

section BlockSeek

variable {bd : BlockData} {entries : List BEntry} {ridx : List Nat}
variable {cmp : List Nat → List Nat → Int} {target : List Nat}

lemma restart_decode (hwf : wfBlock bd entries ridx) (hne : entries ≠ [])
    {j : Nat} (hj : j < bd.numRestarts) :
    decodeEntry bd.data (getRestartPoint bd j) bd.restarts =
      some (0, (entryAt entries (ridx.getD j 0)).nonShared,
        (entryAt entries (ridx.getD j 0)).valueLen,
        (entryAt entries (ridx.getD j 0)).hdrEnd) ∧
    readBytes bd.data (entryAt entries (ridx.getD j 0)).hdrEnd
        (entryAt entries (ridx.getD j 0)).nonShared =
      restartKey entries ridx j := by
  obtain ⟨hlt, hgrp, hsh⟩ := wf_restart_facts hwf hne hj
  constructor
  · rw [hgrp]
    have hd := wf_decode hwf hlt
    rw [hsh] at hd
    exact hd
  · have hk := wf_key_eq hwf hlt
    rw [hsh] at hk
    simp only [List.take_zero, List.nil_append] at hk
    rw [← hk]
    rfl

lemma restartKey_lt (hwf : wfBlock bd entries ridx) (hne : entries ≠ [])
    (hsort : sortedEntries cmp entries) {m m2 : Nat} (h : m < m2)
    (hm2 : m2 < bd.numRestarts) :
    cmp (restartKey entries ridx m) (restartKey entries ridx m2) < 0 := by
  have hmono := wf_ridx_mono hwf hne h hm2
  have hlt := (wf_restart_facts hwf hne hm2).1
  exact hsort _ hlt _ hmono

lemma restartKey_down (hwf : wfBlock bd entries ridx) (hne : entries ≠ [])
    (hsort : sortedEntries cmp entries)
    (htrans : ∀ a b c, cmp a b < 0 → cmp b c < 0 → cmp a c < 0)
    {m m2 : Nat} (h : m ≤ m2) (hm2 : m2 < bd.numRestarts)
    (hP : cmp (restartKey entries ridx m2) target < 0) :
    cmp (restartKey entries ridx m) target < 0 := by
  rcases Nat.eq_or_lt_of_le h with rfl | hlt
  · exact hP
  · exact htrans _ _ _ (restartKey_lt hwf hne hsort hlt hm2) hP

lemma seekBinAux_spec (hwf : wfBlock bd entries ridx) (hne : entries ≠ [])
    (hsort : sortedEntries cmp entries)
    (htrans : ∀ a b c, cmp a b < 0 → cmp b c < 0 → cmp a c < 0) :
    ∀ fuel left right, right < bd.numRestarts → left ≤ right →
      right - left < fuel →
      (left = 0 ∨ cmp (restartKey entries ridx left) target < 0) →
      (∀ m, right < m → m < bd.numRestarts →
        ¬cmp (restartKey entries ridx m) target < 0) →
      ∃ L, seekBinAux bd cmp target fuel left right = some L ∧
        L < bd.numRestarts ∧
        (L = 0 ∨ cmp (restartKey entries ridx L) target < 0) ∧
        (∀ m, L < m → m < bd.numRestarts →
          ¬cmp (restartKey entries ridx m) target < 0) := by
  intro fuel
  induction fuel with
  | zero =>
    intro left right hr hlr hfuel
    omega
  | succ f ih =>
    intro left right hr hlr hfuel hlow hhigh
    simp only [seekBinAux]
    by_cases hcase : left < right
    · rw [if_pos hcase]
      have hn31 : bd.numRestarts < 2 ^ 31 := hwf.2.2.2.1
      have hmodeq : (left + right + 1) % 2 ^ 32 = left + right + 1 :=
        Nat.mod_eq_of_lt (by omega)
      rw [hmodeq]
      have hmidlow : left < (left + right + 1) / 2 := by omega
      have hmidhigh : (left + right + 1) / 2 ≤ right := by omega
      have hmidnum : (left + right + 1) / 2 < bd.numRestarts := by omega
      obtain ⟨hdec, hkeys⟩ := restart_decode hwf hne hmidnum
      simp only [hdec]
      rw [if_neg (by simp)]
      rw [hkeys]
      by_cases hcmp : cmp (restartKey entries ridx ((left + right + 1) / 2))
          target < 0
      · rw [if_pos hcmp]
        exact ih ((left + right + 1) / 2) right hr (by omega) (by omega)
          (Or.inr hcmp) hhigh
      · rw [if_neg hcmp]
        refine ih left ((left + right + 1) / 2 - 1) (by omega) (by omega)
          (by omega) hlow ?_
        intro m hm1 hm2
        rcases Nat.lt_or_ge right m with hmr | hmr
        · exact hhigh m hmr hm2
        · intro hPm
          exact hcmp
            (restartKey_down hwf hne hsort htrans (by omega) hm2 hPm)
    · rw [if_neg hcase]
      have : left = right := by omega
      subst this
      exact ⟨left, rfl, by omega, hlow, hhigh⟩

lemma firstGE_eq_some (cmp : List Nat → List Nat → Int) (target : List Nat) :
    ∀ (es : List BEntry) (j : Nat), j < es.length →
      0 ≤ cmp (entryAt es j).key target →
      (∀ k, k < j → cmp (entryAt es k).key target < 0) →
      firstGE cmp target es = some j := by
  intro es
  induction es with
  | nil =>
    intro j hj
    simp at hj
  | cons e rest ih =>
    intro j hj hge hpref
    cases j with
    | zero =>
      rw [firstGE, if_pos (by simpa [entryAt_cons_zero] using hge)]
    | succ m =>
      have h0 : cmp e.key target < 0 := by
        have := hpref 0 (by omega)
        simpa [entryAt_cons_zero] using this
      rw [firstGE, if_neg (by omega)]
      have hrec := ih m (by simpa using hj)
        (by simpa [entryAt_cons_succ] using hge)
        (fun k hk => by
          have := hpref (k + 1) (by omega)
          simpa [entryAt_cons_succ] using this)
      rw [hrec]
      rfl

lemma firstGE_eq_none (cmp : List Nat → List Nat → Int) (target : List Nat) :
    ∀ es : List BEntry,
      (∀ k, k < es.length → cmp (entryAt es k).key target < 0) →
      firstGE cmp target es = none := by
  intro es
  induction es with
  | nil => intro _; rfl
  | cons e rest ih =>
    intro hall
    have h0 : cmp e.key target < 0 := by
      have := hall 0 (by simp)
      simpa [entryAt_cons_zero] using this
    rw [firstGE, if_neg (by omega)]
    rw [ih (fun k hk => by
      have := hall (k + 1) (by simpa using hk)
      simpa [entryAt_cons_succ] using this)]
    rfl

lemma before_scan_lt (hwf : wfBlock bd entries ridx) (hne : entries ≠ [])
    (hsort : sortedEntries cmp entries)
    (htrans : ∀ a b c, cmp a b < 0 → cmp b c < 0 → cmp a c < 0)
    {L : Nat} (hL : L < bd.numRestarts)
    (hPL : L = 0 ∨ cmp (restartKey entries ridx L) target < 0) :
    ∀ k, k < ridx.getD L 0 → cmp (entryAt entries k).key target < 0 := by
  intro k hk
  rcases hPL with rfl | hPL
  · rw [wf_ridx_zero hwf hne] at hk
    omega
  · have hsk := hsort (ridx.getD L 0) (wf_restart_facts hwf hne hL).1 k hk
    exact htrans _ _ _ hsk hPL

end BlockSeek

end LevelDB
namespace LevelDB

section BlockSeekTop

variable {bd : BlockData} {entries : List BEntry} {ridx : List Nat}
variable {cmp : List Nat → List Nat → Int} {target : List Nat}

lemma atEntry_riOk (hwf : wfBlock bd entries ridx) {i : Nat}
    (hi : i < entries.length) {st : IterState}
    (hat : atEntry bd entries i st) : riOk bd st := by
  obtain ⟨hc, hk, hvo, hvl, hs, hri⟩ := hat
  obtain ⟨hrn, hrle, hrnext⟩ := hri
  refine ⟨by rw [hc]; exact hrle, ?_, fun hn => by rw [hc]; exact hrnext hn⟩
  rw [hc]
  exact wf_off_lt_restarts hwf hi

lemma seekBinAux_some (hwf : wfBlock bd entries ridx) (hne : entries ≠ []) :
    ∀ fuel left right, right < bd.numRestarts → left ≤ right →
      right - left < fuel →
      ∃ L, seekBinAux bd c t fuel left right = some L ∧
        L < bd.numRestarts := by
  intro fuel
  induction fuel with
  | zero =>
    intro left right hr hlr hfuel
    omega
  | succ f ih =>
    intro left right hr hlr hfuel
    simp only [seekBinAux]
    by_cases hcase : left < right
    · rw [if_pos hcase]
      have hn31 : bd.numRestarts < 2 ^ 31 := hwf.2.2.2.1
      have hmodeq : (left + right + 1) % 2 ^ 32 = left + right + 1 :=
        Nat.mod_eq_of_lt (by omega)
      rw [hmodeq]
      have hmidlow : left < (left + right + 1) / 2 := by omega
      have hmidhigh : (left + right + 1) / 2 ≤ right := by omega
      obtain ⟨hdec, hkeys⟩ :=
        restart_decode hwf hne (j := (left + right + 1) / 2) (by omega)
      simp only [hdec]
      rw [if_neg (by simp)]
      rw [hkeys]
      by_cases hcmp : c (restartKey entries ridx ((left + right + 1) / 2))
          t < 0
      · rw [if_pos hcmp]
        exact ih ((left + right + 1) / 2) right hr (by omega) (by omega)
      · rw [if_neg hcmp]
        exact ih left ((left + right + 1) / 2 - 1) (by omega) (by omega)
          (by omega)
    · rw [if_neg hcase]
      exact ⟨left, rfl, by omega⟩

lemma seekBin_largest (hwf : wfBlock bd entries ridx)
    (hsort : sortedEntries cmp entries)
    (htrans : ∀ a b c, cmp a b < 0 → cmp b c < 0 → cmp a c < 0) :
    ∃ L, seekBinAux bd cmp target (bd.numRestarts + 1) 0
        ((bd.numRestarts + (2 ^ 32 - 1)) % 2 ^ 32) = some L ∧
      L < bd.numRestarts ∧
      (0 < L → cmp (restartKey entries ridx L) target < 0) ∧
      (∀ m, m < bd.numRestarts →
        cmp (restartKey entries ridx m) target < 0 → m ≤ L) := by
  have hn1 : 1 ≤ bd.numRestarts := hwf.2.2.1
  have hn31 : bd.numRestarts < 2 ^ 31 := hwf.2.2.2.1
  have hrw : (bd.numRestarts + (2 ^ 32 - 1)) % 2 ^ 32 = bd.numRestarts - 1 :=
    u32_pred bd.numRestarts hn1 (by omega)
  rw [hrw]
  by_cases hne : entries = []
  · have hnum : bd.numRestarts = 1 := hwf.2.2.2.2.2.1 hne
    rw [hnum]
    have h1 : seekBinAux bd cmp target (1 + 1) 0 0 = some 0 := by
      rw [seekBinAux, if_neg (lt_irrefl 0)]
    exact ⟨0, h1, by omega, by omega, fun m hm _ => by omega⟩
  · obtain ⟨L, heq, hLn, hPL, hhigh⟩ :=
      seekBinAux_spec hwf hne hsort htrans (bd.numRestarts + 1) 0
        (bd.numRestarts - 1) (by omega) (by omega) (by omega)
        (Or.inl rfl) (fun m hm1 hm2 => by omega)
    refine ⟨L, heq, hLn, fun hL0 => ?_, fun m hm hPm => ?_⟩
    · rcases hPL with h | h
      · omega
      · exact h
    · by_contra hcon
      exact hhigh m (by omega) hm hPm

lemma seekOp_eq {bd : BlockData} {cmp : List Nat → List Nat → Int}
    {target : List Nat} {st0 : IterState} {L : Nat}
    (h : seekBinAux bd cmp target (bd.numRestarts + 1) 0
      ((bd.numRestarts + (2 ^ 32 - 1)) % 2 ^ 32) = some L) :
    seekOp bd cmp target st0 =
      seekLinear bd cmp target (bd.restarts + 1)
        (seekToRestartPoint bd L st0) := by
  unfold seekOp
  rw [h, seekFinish]

lemma seekOp_cases (hwf : wfBlock bd entries ridx)
    (hsort : sortedEntries cmp entries)
    (htrans : ∀ a b c, cmp a b < 0 → cmp b c < 0 → cmp a c < 0)
    {st0 : IterState} (h0 : st0.status = BStatus.ok) :
    (∀ f, firstGE cmp target entries = some f →
      atEntry bd entries f (seekOp bd cmp target st0)) ∧
    (firstGE cmp target entries = none →
      (seekOp bd cmp target st0).current = bd.restarts ∧
      (seekOp bd cmp target st0).status = BStatus.ok ∧
      (seekOp bd cmp target st0).restartIndex = bd.numRestarts ∧
      IterState.valid bd (seekOp bd cmp target st0) = false) := by
  have hn1 : 1 ≤ bd.numRestarts := hwf.2.2.1
  have hn31 : bd.numRestarts < 2 ^ 31 := hwf.2.2.2.1
  have hrw : (bd.numRestarts + (2 ^ 32 - 1)) % 2 ^ 32 = bd.numRestarts - 1 :=
    u32_pred bd.numRestarts hn1 (by omega)
  by_cases hne : entries = []
  · have hnum : bd.numRestarts = 1 := hwf.2.2.2.2.2.1 hne
    have hr0 : bd.restarts = 0 := by
      subst hne
      exact chainOk_nil_restarts bd [] hwf.1
    have hbin : seekBinAux bd cmp target (bd.numRestarts + 1) 0
        ((bd.numRestarts + (2 ^ 32 - 1)) % 2 ^ 32) = some 0 := by
      rw [hrw, hnum]
      rw [seekBinAux, if_neg (lt_irrefl 0)]
    have hlin := seekLinear_spec (c := cmp) (t := target) hwf
      (a := entries.length) (s := seekToRestartPoint bd 0 st0)
      (Or.inr ⟨rfl, by omega, h0⟩) (u := bd.restarts + 1) (by omega)
    rcases hlin with ⟨j, hj1, hj2, hrest⟩ | ⟨hall, hcur, hst, hri⟩
    · subst hne
      simp at hj2
    · have hfge : firstGE cmp target entries = none := by
        subst hne
        rfl
      rw [seekOp_eq hbin]
      refine ⟨fun f hf => ?_, fun _ => ⟨hcur, hst, hri, ?_⟩⟩
      · rw [hfge] at hf
        exact absurd hf (by simp)
      · simp [IterState.valid, hcur]
  · have hlen := wf_len_le hwf
    have hNpos := entries_length_pos hne
    obtain ⟨L, heq, hLn, hPL, hhigh⟩ :=
      seekBinAux_spec hwf hne hsort htrans (bd.numRestarts + 1) 0
        (bd.numRestarts - 1) (by omega) (by omega) (by omega)
        (Or.inl rfl) (fun m hm1 hm2 => by omega)
    have hbin : seekBinAux bd cmp target (bd.numRestarts + 1) 0
        ((bd.numRestarts + (2 ^ 32 - 1)) % 2 ^ 32) = some L := by
      rw [hrw]
      exact heq
    have ha := (wf_restart_facts hwf hne hLn).1
    have hbefore := before_scan_lt hwf hne hsort htrans hLn hPL
    have hlin := seekLinear_spec (c := cmp) (t := target) hwf
      (a := ridx.getD L 0) (s := seekToRestartPoint bd L st0)
      (Or.inl ⟨ha, seekToRestartPoint_preAt hwf hne hLn h0⟩)
      (u := bd.restarts + 1) (by omega)
    rw [seekOp_eq hbin]
    rcases hlin with ⟨j, hj1, hj2, hat, hge, hpref⟩ | ⟨hall, hcur, hst, hri⟩
    · have hfge : firstGE cmp target entries = some j := by
        refine firstGE_eq_some cmp target entries j hj2 hge ?_
        intro k hk
        rcases Nat.lt_or_ge k (ridx.getD L 0) with hka | hka
        · exact hbefore k hka
        · exact hpref k hka hk
      refine ⟨fun f hf => ?_, fun hnone => ?_⟩
      · rw [hfge] at hf
        simp only [Option.some.injEq] at hf
        subst hf
        exact hat
      · rw [hfge] at hnone
        exact absurd hnone (by simp)
    · have hfge : firstGE cmp target entries = none := by
        refine firstGE_eq_none cmp target entries ?_
        intro k hk
        rcases Nat.lt_or_ge k (ridx.getD L 0) with hka | hka
        · exact hbefore k hka
        · exact hall k hka hk
      refine ⟨fun f hf => ?_, fun _ => ⟨hcur, hst, hri, ?_⟩⟩
      · rw [hfge] at hf
        exact absurd hf (by simp)
      · simp [IterState.valid, hcur]

end BlockSeekTop

end LevelDB
namespace LevelDB

lemma byteCompare_trans :
    ∀ (a b c : List Nat), byteCompare a b < 0 → byteCompare b c < 0 →
      byteCompare a c < 0 := by
  intro a
  induction a with
  | nil =>
    intro b c h1 h2
    cases b with
    | nil => simp [byteCompare] at h1
    | cons y ys =>
      cases c with
      | nil => simp [byteCompare] at h2
      | cons z zs => simp [byteCompare]
  | cons x xs ih =>
    intro b c h1 h2
    cases b with
    | nil => simp [byteCompare] at h1
    | cons y ys =>
      cases c with
      | nil => simp [byteCompare] at h2
      | cons z zs =>
        simp only [byteCompare] at h1 h2 ⊢
        split_ifs at h1 h2 ⊢ <;> first | omega | exact ih ys zs h1 h2

/-- C1: on a well-formed sorted block, Seek(target) binary-searches the
restart array for the largest restart point whose (full) first key is
strictly below target under the supplied comparator (first conjunct: the
returned index L bounds every restart whose key is below target, and is
itself below target unless it is 0), then leaves the iterator positioned
on the first entry whose key is ≥ target with OK status (second
conjunct); if every entry key is below target the iterator ends invalid
with status still OK (third conjunct). -/
theorem seek_binary_search_first_ge (bd : BlockData)
    (entries : List BEntry) (ridx : List Nat)
    (cmp : List Nat → List Nat → Int) (target : List Nat)
    (hwf : wfBlock bd entries ridx) (hsort : sortedEntries cmp entries)
    (htrans : ∀ a b c, cmp a b < 0 → cmp b c < 0 → cmp a c < 0)
    (st0 : IterState) (h0 : st0.status = BStatus.ok) :
    (∃ L, seekBinAux bd cmp target (bd.numRestarts + 1) 0
        ((bd.numRestarts + (2 ^ 32 - 1)) % 2 ^ 32) = some L ∧
      L < bd.numRestarts ∧
      (0 < L → cmp (restartKey entries ridx L) target < 0) ∧
      (∀ m, m < bd.numRestarts →
        cmp (restartKey entries ridx m) target < 0 → m ≤ L)) ∧
    (∀ f, firstGE cmp target entries = some f →
      atEntry bd entries f (seekOp bd cmp target st0)) ∧
    (firstGE cmp target entries = none →
      (seekOp bd cmp target st0).current = bd.restarts ∧
      (seekOp bd cmp target st0).status = BStatus.ok ∧
      IterState.valid bd (seekOp bd cmp target st0) = false) := by
  refine ⟨seekBin_largest hwf hsort htrans, ?_, ?_⟩
  · exact (seekOp_cases hwf hsort htrans h0).1
  · intro h
    obtain ⟨h1, h2, h3, h4⟩ := (seekOp_cases hwf hsort htrans h0).2 h
    exact ⟨h1, h2, h4⟩

theorem seek_binary_search_first_ge_witness :
    atEntry exBlock exEntries 1
      (seekOp exBlock byteCompare [97, 98, 120] (initIter exBlock)) :=
  (seek_binary_search_first_ge exBlock exEntries exRidx byteCompare
    [97, 98, 120] (by decide) (by decide) byteCompare_trans
    (initIter exBlock) rfl).2.1 1 (by decide)

/-- C4 counterexample: on the well-formed block exBlock, running
seekToLast and then three Prev calls leaves the iterator invalid (it ran
off the beginning), but one further Next re-validates it (landing on the
second entry), refuting the claim that a next() from that invalid state
leaves the iterator invalid. -/
theorem next_after_prev_off_begin_revalidates :
    wfBlock exBlock exEntries exRidx ∧
    IterState.valid exBlock
      (prevOp exBlock (prevOp exBlock (prevOp exBlock
        (seekToLast exBlock (initIter exBlock))))) = false ∧
    IterState.valid exBlock
      (nextOp exBlock (prevOp exBlock (prevOp exBlock (prevOp exBlock
        (seekToLast exBlock (initIter exBlock)))))) = true := by
  refine ⟨by decide, by decide, by decide⟩

/-- C4 (amended): on a well-formed block with N entries, seekToFirst
followed by repeated next() visits exactly the N entries in ascending
offset order with their reconstructed keys (first conjunct), ending
invalid with OK status after N next() calls (second conjunct);
seekToLast followed by repeated prev() visits the same entries in
reverse (third conjunct), and prev() from the first entry runs off the
beginning leaving the iterator invalid with OK status (fourth and fifth
conjuncts).  The original claim's final clause is dropped: next() from
the off-the-beginning invalid state violates the iterator's asserted
precondition and, in release semantics, repositions to the second entry
instead of remaining invalid. -/
theorem block_iteration_equivalence (bd : BlockData)
    (entries : List BEntry) (ridx : List Nat)
    (hwf : wfBlock bd entries ridx) (st0 : IterState)
    (h0 : st0.status = BStatus.ok) :
    (∀ k, k < entries.length →
      atEntry bd entries k ((nextOp bd)^[k] (seekToFirst bd st0))) ∧
    (((nextOp bd)^[entries.length] (seekToFirst bd st0)).current =
        bd.restarts ∧
      ((nextOp bd)^[entries.length] (seekToFirst bd st0)).status =
        BStatus.ok ∧
      IterState.valid bd
        ((nextOp bd)^[entries.length] (seekToFirst bd st0)) = false) ∧
    (∀ k, k < entries.length →
      atEntry bd entries (entries.length - 1 - k)
        ((prevOp bd)^[k] (seekToLast bd st0))) ∧
    (∀ st, entries ≠ [] → atEntry bd entries 0 st →
      (prevOp bd st).current = bd.restarts ∧
      (prevOp bd st).status = BStatus.ok ∧
      IterState.valid bd (prevOp bd st) = false) ∧
    (((prevOp bd)^[entries.length] (seekToLast bd st0)).current =
        bd.restarts ∧
      ((prevOp bd)^[entries.length] (seekToLast bd st0)).status =
        BStatus.ok ∧
      IterState.valid bd
        ((prevOp bd)^[entries.length] (seekToLast bd st0)) = false) := by
  have hfwd : ∀ k, k < entries.length →
      atEntry bd entries k ((nextOp bd)^[k] (seekToFirst bd st0)) := by
    intro k
    induction k with
    | zero =>
      intro hk
      have hne : entries ≠ [] := by
        intro h
        rw [h] at hk
        simp at hk
      simpa using seekToFirst_at hwf hne h0
    | succ m ih =>
      intro hk
      rw [Function.iterate_succ_apply']
      exact nextOp_at hwf (ih (by omega)) hk
  have hbwd : ∀ k, k < entries.length →
      atEntry bd entries (entries.length - 1 - k)
        ((prevOp bd)^[k] (seekToLast bd st0)) := by
    intro k
    induction k with
    | zero =>
      intro hk
      have hne : entries ≠ [] := by
        intro h
        rw [h] at hk
        simp at hk
      simpa using seekToLast_at hwf hne h0
    | succ m ih =>
      intro hk
      rw [Function.iterate_succ_apply']
      have hat := ih (by omega)
      have heq : entries.length - 1 - (m + 1) =
          entries.length - 1 - m - 1 := by omega
      rw [heq]
      exact prevOp_at hwf (by omega) (by omega) hat
  refine ⟨hfwd, ?_, hbwd, ?_, ?_⟩
  · by_cases hne : entries = []
    · subst hne
      simp only [List.length_nil, Function.iterate_zero_apply]
      obtain ⟨h1, h2, h3, h4⟩ := seekToFirst_empty hwf rfl h0
      exact ⟨h1, h2, h4⟩
    · have hN : entries.length = (entries.length - 1) + 1 := by
        have := entries_length_pos hne
        omega
      rw [hN, Function.iterate_succ_apply']
      obtain ⟨h1, h2, h3⟩ := nextOp_end hwf
        (hfwd (entries.length - 1) (by omega)) hne
      exact ⟨h1, h2, h3⟩
  · intro st hne hat
    obtain ⟨h1, h2, h3, h4⟩ := prevOp_begin hwf hne hat
    exact ⟨h1, h2, h4⟩
  · by_cases hne : entries = []
    · subst hne
      simp only [List.length_nil, Function.iterate_zero_apply]
      obtain ⟨h1, h2, h3, h4⟩ := seekToLast_empty hwf rfl h0
      exact ⟨h1, h2, h4⟩
    · have hN : entries.length = (entries.length - 1) + 1 := by
        have := entries_length_pos hne
        omega
      rw [hN, Function.iterate_succ_apply']
      have hat := hbwd (entries.length - 1) (by omega)
      have heq : entries.length - 1 - (entries.length - 1) = 0 := by omega
      rw [heq] at hat
      obtain ⟨h1, h2, h3, h4⟩ := prevOp_begin hwf hne hat
      exact ⟨h1, h2, h4⟩

theorem block_iteration_equivalence_witness :
    atEntry exBlock exEntries 2
      ((nextOp exBlock)^[2] (seekToFirst exBlock (initIter exBlock))) ∧
    atEntry exBlock exEntries 1
      ((prevOp exBlock)^[1] (seekToLast exBlock (initIter exBlock))) :=
  ⟨(block_iteration_equivalence exBlock exEntries exRidx (by decide)
      (initIter exBlock) rfl).1 2 (by decide),
   (block_iteration_equivalence exBlock exEntries exRidx (by decide)
      (initIter exBlock) rfl).2.2.1 1 (by decide)⟩

end LevelDB
namespace LevelDB

/-- C5 counterexample: on the well-formed block exBlock (restart
interval 1 over its first two restart entries), after seekToFirst and
two next() calls the iterator is valid with cursor 11 and restartIndex
0, but restart[restartIndex + 1] = 11 as well: the claimed strict bound
cursor < restart[restartIndex + 1].offset fails, and restartIndex is
not the largest restart whose offset is ≤ the cursor. -/
theorem restart_index_strict_bound_fails :
    wfBlock exBlock exEntries exRidx ∧
    IterState.valid exBlock
      (nextOp exBlock (nextOp exBlock
        (seekToFirst exBlock (initIter exBlock)))) = true ∧
    (nextOp exBlock (nextOp exBlock
        (seekToFirst exBlock (initIter exBlock)))).restartIndex + 1 <
      exBlock.numRestarts ∧
    ¬((nextOp exBlock (nextOp exBlock
        (seekToFirst exBlock (initIter exBlock)))).current <
      getRestartPoint exBlock
        ((nextOp exBlock (nextOp exBlock
          (seekToFirst exBlock (initIter exBlock)))).restartIndex + 1)) := by
  exact ⟨by decide, by decide, by decide, by decide⟩

/-- C5 (amended): on a well-formed block, every positioning operation
(seekToFirst, seekToLast, seek, next, prev — the latter two applied to a
state positioned on an entry) that leaves the iterator valid establishes
restart[restartIndex].offset ≤ cursor < restartArrayStart, with
cursor ≤ restart[restartIndex + 1].offset when a next restart exists.
The bound against the next restart is not strict: next() onto an offset
equal to the next restart point leaves restartIndex one range behind
(see the counterexample), i.e. the update only advances restartIndex to
the largest restart whose offset is strictly below the new cursor. -/
theorem restart_index_consistency (bd : BlockData) (entries : List BEntry)
    (ridx : List Nat) (hwf : wfBlock bd entries ridx)
    (cmp : List Nat → List Nat → Int) (target : List Nat)
    (st0 : IterState) (h0 : st0.status = BStatus.ok)
    (i : Nat) (hi : i < entries.length) (st : IterState)
    (hat : atEntry bd entries i st) :
    (IterState.valid bd (seekToFirst bd st0) = true →
      riOk bd (seekToFirst bd st0)) ∧
    (IterState.valid bd (seekToLast bd st0) = true →
      riOk bd (seekToLast bd st0)) ∧
    (IterState.valid bd (seekOp bd cmp target st0) = true →
      riOk bd (seekOp bd cmp target st0)) ∧
    (IterState.valid bd (nextOp bd st) = true → riOk bd (nextOp bd st)) ∧
    (IterState.valid bd (prevOp bd st) = true → riOk bd (prevOp bd st)) := by
  have hval : ∀ st2 : IterState, st2.current = bd.restarts →
      IterState.valid bd st2 = false := by
    intro st2 h
    simp [IterState.valid, h]
  refine ⟨?_, ?_, ?_, ?_, ?_⟩
  · intro hv
    by_cases hne : entries = []
    · rw [(seekToFirst_empty hwf hne h0).2.2.2] at hv
      cases hv
    · exact atEntry_riOk hwf (entries_length_pos hne)
        (seekToFirst_at hwf hne h0)
  · intro hv
    by_cases hne : entries = []
    · rw [(seekToLast_empty hwf hne h0).2.2.2] at hv
      cases hv
    · have hpos := entries_length_pos hne
      exact atEntry_riOk hwf (by omega) (seekToLast_at hwf hne h0)
  · intro hv
    have hn1 : 1 ≤ bd.numRestarts := hwf.2.2.1
    have hn31 : bd.numRestarts < 2 ^ 31 := hwf.2.2.2.1
    have hrw : (bd.numRestarts + (2 ^ 32 - 1)) % 2 ^ 32 =
        bd.numRestarts - 1 := u32_pred bd.numRestarts hn1 (by omega)
    by_cases hne : entries = []
    · have hr0 : bd.restarts = 0 := by
        subst hne
        exact chainOk_nil_restarts bd [] hwf.1
      have hbin : seekBinAux bd cmp target (bd.numRestarts + 1) 0
          ((bd.numRestarts + (2 ^ 32 - 1)) % 2 ^ 32) = some 0 := by
        rw [hrw, hwf.2.2.2.2.2.1 hne]
        rw [seekBinAux, if_neg (lt_irrefl 0)]
      have hlin := seekLinear_spec (c := cmp) (t := target) hwf
        (a := entries.length) (s := seekToRestartPoint bd 0 st0)
        (Or.inr ⟨rfl, by omega, h0⟩) (u := bd.restarts + 1) (by omega)
      rw [seekOp_eq hbin] at hv
      rcases hlin with ⟨j, hj1, hj2, hrest⟩ | ⟨hall, hcur, hrest⟩
      · rw [hne] at hj2
        simp at hj2
      · rw [hval _ hcur] at hv
        cases hv
    · have hlen := wf_len_le hwf
      obtain ⟨L, heq, hLn⟩ := seekBinAux_some (c := cmp)
        (t := target) hwf hne (bd.numRestarts + 1) 0
        (bd.numRestarts - 1) (by omega) (by omega) (by omega)
      have hbin : seekBinAux bd cmp target (bd.numRestarts + 1) 0
          ((bd.numRestarts + (2 ^ 32 - 1)) % 2 ^ 32) = some L := by
        rw [hrw]
        exact heq
      have ha := (wf_restart_facts hwf hne hLn).1
      have hlin := seekLinear_spec (c := cmp) (t := target) hwf
        (a := ridx.getD L 0) (s := seekToRestartPoint bd L st0)
        (Or.inl ⟨ha, seekToRestartPoint_preAt hwf hne hLn h0⟩)
        (u := bd.restarts + 1) (by omega)
      rw [seekOp_eq hbin] at hv ⊢
      rcases hlin with ⟨j, hj1, hj2, hat2, hrest⟩ | ⟨hall, hcur, hrest⟩
      · exact atEntry_riOk hwf hj2 hat2
      · rw [hval _ hcur] at hv
        cases hv
  · intro hv
    rcases Nat.lt_or_ge (i + 1) entries.length with h1 | h1
    · exact atEntry_riOk hwf h1 (nextOp_at hwf hat h1)
    · have hne : entries ≠ [] := by
        intro h
        rw [h] at hi
        simp at hi
      have hieq : i = entries.length - 1 := by omega
      subst hieq
      rw [(nextOp_end hwf hat hne).2.2] at hv
      cases hv
  · intro hv
    have hne : entries ≠ [] := by
      intro h
      rw [h] at hi
      simp at hi
    rcases Nat.eq_zero_or_pos i with h1 | h1
    · subst h1
      rw [(prevOp_begin hwf hne hat).2.2.2] at hv
      cases hv
    · exact atEntry_riOk hwf (by omega) (prevOp_at hwf hi h1 hat)

theorem restart_index_consistency_witness :
    riOk exBlock (nextOp exBlock (seekToFirst exBlock (initIter exBlock))) :=
  (restart_index_consistency exBlock exEntries exRidx (by decide)
    byteCompare [] (initIter exBlock) rfl 0 (by decide)
    (seekToFirst exBlock (initIter exBlock)) (by decide)).2.2.2.1
    (by decide)

end LevelDB
namespace LevelDB

/-- C3 counterexample: on overflowBlock the single entry header
declares nonShared = valueLen = 2^31; their true sum 2^32 exceeds the
0 bytes remaining before the restart array, yet the u32 sum wraps to 0,
DecodeEntry accepts the entry, and after seekToFirst the iterator is
valid with OK status — no Corruption is latched even though the
declared lengths overrun the block. -/
theorem decode_overflow_accepted :
    decodeEntry overflowBlock.data 0 overflowBlock.restarts =
      some (0, 2 ^ 31, 2 ^ 31, 11) ∧
    overflowBlock.restarts - 11 < 2 ^ 31 + 2 ^ 31 ∧
    (seekToFirst overflowBlock (initIter overflowBlock)).status =
      BStatus.ok ∧
    IterState.valid overflowBlock
      (seekToFirst overflowBlock (initIter overflowBlock)) = true := by
  exact ⟨by decide, by decide, by decide, by decide⟩

/-- C3 (amended): whenever decoding the next entry fails — the three
varint header fields cannot be decoded within [p, restartArrayStart),
or the declared shared length exceeds the retained previous key, or
nonShared + valueLen computed in 32-bit wraparound arithmetic (as the
u32 code does; with unbounded arithmetic the sum can wrap and a
violating entry be accepted, see the counterexample) exceeds the bytes
remaining before the restart array — ParseNextKey latches
status = Corruption, parks the cursor at restartArrayStart (invalid),
clears the key and the value slice, and the iterator stops advancing. -/
theorem parse_failure_latches_corruption (bd : BlockData) (st : IterState)
    (hin : nextEntryOffset st < bd.restarts)
    (hfail : decodeEntry bd.data (nextEntryOffset st) bd.restarts = none ∨
      ∃ sh ns vl q,
        decodeEntry bd.data (nextEntryOffset st) bd.restarts =
          some (sh, ns, vl, q) ∧ st.key.length < sh) :
    parseNextKey bd st = (false, corruptionError bd st) ∧
    (corruptionError bd st).status = BStatus.corruption ∧
    (corruptionError bd st).current = bd.restarts ∧
    (corruptionError bd st).key = [] ∧
    (corruptionError bd st).valOff = 0 ∧
    (corruptionError bd st).valLen = 0 ∧
    IterState.valid bd (corruptionError bd st) = false := by
  refine ⟨?_, rfl, rfl, rfl, rfl, rfl, ?_⟩
  · simp only [parseNextKey]
    rw [if_neg (by omega)]
    rcases hfail with h | ⟨sh, ns, vl, q, h, hlen⟩
    · rw [h]
    · simp only [h]
      rw [if_pos hlen]
  · simp [corruptionError, IterState.valid]

theorem parse_failure_latches_corruption_witness :
    parseNextKey badHdrBlock (initIter badHdrBlock) =
      (false, corruptionError badHdrBlock (initIter badHdrBlock)) ∧
    (corruptionError badHdrBlock (initIter badHdrBlock)).status =
      BStatus.corruption ∧
    IterState.valid badHdrBlock
      (corruptionError badHdrBlock (initIter badHdrBlock)) = false := by
  have h := parse_failure_latches_corruption badHdrBlock
    (initIter badHdrBlock) (by decide) (Or.inl (by decide))
  exact ⟨h.1, h.2.1, h.2.2.2.2.2.2⟩

/-- C7: Block construction marks a block of size below 4 corrupt
(size 0), in which case NewIterator returns the Corruption error
iterator; with size at least 4 it reads the trailing restart count and
marks the block corrupt exactly when the count exceeds (size-4)/4
(again yielding the error iterator); otherwise the stored size is kept,
restartArrayStart = size - (1 + count)*4, and NewIterator returns the
empty iterator when the count is 0 and the full iterator over
(data, restartArrayStart, count) otherwise. -/
theorem block_construction_dispatch (data : List Nat) :
    (data.length < 4 →
      (mkBlock data).size = 0 ∧
      newIterator (mkBlock data) =
        BlockIterator.errorIter BStatus.corruption) ∧
    (4 ≤ data.length →
      (data.length - 4) / 4 < decodeFixed32 data (data.length - 4) →
      (mkBlock data).size = 0 ∧
      newIterator (mkBlock data) =
        BlockIterator.errorIter BStatus.corruption) ∧
    (4 ≤ data.length →
      decodeFixed32 data (data.length - 4) ≤ (data.length - 4) / 4 →
      (mkBlock data).size = data.length ∧
      (mkBlock data).restartOffset =
        data.length - (1 + decodeFixed32 data (data.length - 4)) * 4 ∧
      (decodeFixed32 data (data.length - 4) = 0 →
        newIterator (mkBlock data) = BlockIterator.emptyIter) ∧
      (0 < decodeFixed32 data (data.length - 4) →
        newIterator (mkBlock data) =
          BlockIterator.fullIter
            { data := data
              restarts :=
                data.length - (1 + decodeFixed32 data (data.length - 4)) * 4
              numRestarts := decodeFixed32 data (data.length - 4) }
            (initIter
              { data := data
                restarts :=
                  data.length -
                    (1 + decodeFixed32 data (data.length - 4)) * 4
                numRestarts := decodeFixed32 data (data.length - 4) }))) := by
  refine ⟨?_, ?_, ?_⟩
  · intro h4
    have hm : mkBlock data = ⟨data, 0, 0⟩ := by
      simp only [mkBlock]
      rw [if_pos h4]
    rw [hm]
    exact ⟨rfl, by simp [newIterator]⟩
  · intro h4 hcount
    have hm : mkBlock data = ⟨data, 0, 0⟩ := by
      simp only [mkBlock]
      rw [if_neg (by omega), if_pos hcount]
    rw [hm]
    exact ⟨rfl, by simp [newIterator]⟩
  · intro h4 hcount
    have hm : mkBlock data =
        ⟨data, data.length,
          data.length - (1 + decodeFixed32 data (data.length - 4)) * 4⟩ := by
      simp only [mkBlock]
      rw [if_neg (by omega), if_neg (by omega)]
    rw [hm]
    refine ⟨rfl, rfl, ?_, ?_⟩
    · intro h0
      have h4x : ¬data.length < 4 := by omega
      simp [newIterator, numRestartsOf, h4x, h0]
    · intro h0
      have h4x : ¬data.length < 4 := by omega
      have h0x : decodeFixed32 data (data.length - 4) ≠ 0 := by omega
      simp [newIterator, numRestartsOf, h4x, h0x]

theorem block_construction_dispatch_witness :
    (mkBlock [0, 0, 0]).size = 0 ∧
    newIterator (mkBlock [0, 0, 0]) =
      BlockIterator.errorIter BStatus.corruption ∧
    (mkBlock [9, 0, 0, 0]).size = 0 ∧
    newIterator (mkBlock [9, 0, 0, 0]) =
      BlockIterator.errorIter BStatus.corruption ∧
    newIterator (mkBlock [0, 0, 0, 0]) = BlockIterator.emptyIter ∧
    newIterator (mkBlock [0, 0, 0, 0, 1, 0, 0, 0]) =
      BlockIterator.fullIter ⟨[0, 0, 0, 0, 1, 0, 0, 0], 0, 1⟩
        (initIter ⟨[0, 0, 0, 0, 1, 0, 0, 0], 0, 1⟩) := by
  have h1 := (block_construction_dispatch [0, 0, 0]).1 (by decide)
  have h2 := (block_construction_dispatch [9, 0, 0, 0]).2.1 (by decide)
    (by decide)
  have h3 := ((block_construction_dispatch [0, 0, 0, 0]).2.2 (by decide)
    (by decide)).2.2.1 (by decide)
  have h4 := ((block_construction_dispatch
    [0, 0, 0, 0, 1, 0, 0, 0]).2.2 (by decide) (by decide)).2.2.2 (by decide)
  exact ⟨h1.1, h1.2, h2.1, h2.2, h3, h4⟩

/-- C10: on a non-corrupt block (stored size at least 4) with a
positive restart count, NewIterator returns the full iterator whose
fresh state is invalid — the cursor starts at restartArrayStart and the
restart index at the restart count — so key() and value() (which assert
Valid()) are unusable until a successful positioning call. -/
theorem new_iterator_initially_invalid (data : List Nat)
    (h4 : ¬(mkBlock data).size < 4)
    (hn : numRestartsOf (mkBlock data) ≠ 0) :
    ∃ bd : BlockData,
      newIterator (mkBlock data) = BlockIterator.fullIter bd (initIter bd) ∧
      IterState.valid bd (initIter bd) = false ∧
      (initIter bd).current = bd.restarts ∧
      (initIter bd).restartIndex = bd.numRestarts := by
  refine ⟨⟨(mkBlock data).data, (mkBlock data).restartOffset,
    numRestartsOf (mkBlock data)⟩, ?_, ?_, rfl, rfl⟩
  · simp only [newIterator]
    rw [if_neg h4, if_neg hn]
  · simp [IterState.valid, initIter]

theorem new_iterator_initially_invalid_witness :
    ∃ bd : BlockData,
      newIterator (mkBlock [0, 0, 0, 0, 1, 0, 0, 0]) =
        BlockIterator.fullIter bd (initIter bd) ∧
      IterState.valid bd (initIter bd) = false ∧
      (initIter bd).current = bd.restarts ∧
      (initIter bd).restartIndex = bd.numRestarts :=
  new_iterator_initially_invalid [0, 0, 0, 0, 1, 0, 0, 0] (by decide)
    (by decide)

end LevelDB
namespace LevelDB

lemma byteAt_append (l1 l2 : List Nat) (i : Nat) :
    byteAt (l1 ++ l2) (l1.length + i) = byteAt l2 i := by
  unfold byteAt
  rw [List.getD_append_right _ _ _ _ (by omega)]
  congr 1
  omega

lemma decode64_encode64 (t : Nat) (h : t < 2 ^ 64) (l1 : List Nat) :
    decodeFixed64 (l1 ++ encodeFixed64 t) l1.length = t := by
  unfold decodeFixed64
  have e0 := byteAt_append l1 (encodeFixed64 t) 0
  rw [Nat.add_zero] at e0
  rw [e0, byteAt_append, byteAt_append, byteAt_append, byteAt_append,
    byteAt_append, byteAt_append, byteAt_append]
  have b0 : byteAt (encodeFixed64 t) 0 = t % 256 := rfl
  have b1 : byteAt (encodeFixed64 t) 1 = t / 256 % 256 := rfl
  have b2 : byteAt (encodeFixed64 t) 2 = t / 65536 % 256 := rfl
  have b3 : byteAt (encodeFixed64 t) 3 = t / 16777216 % 256 := rfl
  have b4 : byteAt (encodeFixed64 t) 4 = t / 4294967296 % 256 := rfl
  have b5 : byteAt (encodeFixed64 t) 5 = t / 1099511627776 % 256 := rfl
  have b6 : byteAt (encodeFixed64 t) 6 = t / 281474976710656 % 256 := rfl
  have b7 : byteAt (encodeFixed64 t) 7 = t / 72057594037927936 % 256 := rfl
  rw [b0, b1, b2, b3, b4, b5, b6, b7]
  omega

/-- C2: parsing the canonical internal-key encoding
UK ++ fixed-le-u64(SN << 8 | VT) with SN < 2^56 and VT ∈ {0x0, 0x1}
succeeds and returns exactly (UK, SN, VT): the user key is the prefix of
length |encoding| - 8, the sequence number the high 56 bits of the
trailing tag, and the value type its low byte. -/
theorem parse_internal_key_round_trip (uk : List Nat) (sn vt : Nat)
    (hsn : sn < 2 ^ 56) (hvt : vt ≤ 1) :
    parseInternalKey (encodeInternalKey uk sn vt) =
      some { userKey := uk, seq := sn, vtype := vt } := by
  have hlen : (encodeInternalKey uk sn vt).length = uk.length + 8 := by
    simp [encodeInternalKey, encodeFixed64]
  have hix : uk.length + 8 - 8 = uk.length := by omega
  have hdec : decodeFixed64 (encodeInternalKey uk sn vt) (uk.length + 8 - 8) =
      sn * 256 + vt := by
    rw [hix]
    exact decode64_encode64 (sn * 256 + vt) (by omega) uk
  have htake : (encodeInternalKey uk sn vt).take (uk.length + 8 - 8) = uk := by
    rw [hix]
    exact List.take_left uk (encodeFixed64 (sn * 256 + vt))
  simp only [parseInternalKey]
  rw [hlen, if_neg (by omega), hdec, htake]
  rw [if_pos (by omega)]
  have hmod : (sn * 256 + vt) % 256 = vt := by omega
  have hdiv : (sn * 256 + vt) / 256 = sn := by omega
  rw [hmod, hdiv]

theorem parse_internal_key_round_trip_witness :
    parseInternalKey (encodeInternalKey [97, 98] 300 1) =
      some { userKey := [97, 98], seq := 300, vtype := 1 } :=
  parse_internal_key_round_trip [97, 98] 300 1 (by decide) (by decide)

/-- C6 counterexample: a read entirely past EOF (offset = L = 4) on the
memory-mapped variant returns an empty slice with IOError, not with OK
as the claim states for both variants. -/
theorem mmap_read_past_eof_errors :
    mmapRead [0, 0, 0, 0] 4 1 = { bytes := [], status := EStatus.ioError } ∧
    (mmapRead [0, 0, 0, 0] 4 1).status ≠ EStatus.ok := by
  exact ⟨by decide, by decide⟩

/-- C6 (amended): the two newRandomAccessFile variants differ at EOF.
The descriptor (pread) variant behaves as claimed: a read at or past
EOF returns an empty slice with OK, and a read straddling EOF returns
the short slice [offset, L) with OK.  The memory-mapped variant instead
returns an empty slice with IOError whenever offset + n > L, and the
full n bytes with OK otherwise. -/
theorem random_access_read_eof (contents : List Nat) (offset n : Nat) :
    (contents.length ≤ offset →
      praRead contents offset n = { bytes := [], status := EStatus.ok }) ∧
    (offset < contents.length → contents.length < offset + n →
      praRead contents offset n =
        { bytes := contents.drop offset, status := EStatus.ok }) ∧
    (contents.length < offset + n →
      mmapRead contents offset n =
        { bytes := [], status := EStatus.ioError }) ∧
    (offset + n ≤ contents.length →
      mmapRead contents offset n =
        { bytes := readBytes contents offset n, status := EStatus.ok }) := by
  refine ⟨?_, ?_, ?_, ?_⟩
  · intro h
    unfold praRead preadBytes
    rw [List.drop_eq_nil_of_le h]
    simp
  · intro h1 h2
    unfold praRead preadBytes
    rw [List.take_of_length_le (by rw [List.length_drop]; omega)]
  · intro h
    unfold mmapRead
    rw [if_pos h]
  · intro h
    unfold mmapRead
    rw [if_neg (by omega)]

theorem random_access_read_eof_witness :
    praRead [1, 2, 3] 5 2 = { bytes := [], status := EStatus.ok } ∧
    praRead [1, 2, 3] 2 4 = { bytes := [3], status := EStatus.ok } ∧
    mmapRead [1, 2, 3] 2 4 = { bytes := [], status := EStatus.ioError } ∧
    mmapRead [1, 2, 3] 1 2 = { bytes := [2, 3], status := EStatus.ok } := by
  refine ⟨(random_access_read_eof [1, 2, 3] 5 2).1 (by decide), ?_, ?_, ?_⟩
  · have h := (random_access_read_eof [1, 2, 3] 2 4).2.1 (by decide)
      (by decide)
    simpa using h
  · exact (random_access_read_eof [1, 2, 3] 2 4).2.2.1 (by decide)
  · have h := (random_access_read_eof [1, 2, 3] 1 2).2.2.2 (by decide)
    simpa [readBytes] using h

/-- C8: with a path not yet registered, a first LockFile succeeds
(returning the PosixFileLock and registering the path in both the
process-local set and the OS-lock set), and a second LockFile on the
same path — whatever the kernel would answer — fails immediately with
IOError and leaves the state untouched: the path stays registered and
the first lock's descriptor and OS lock are undisturbed. -/
theorem lock_file_twice (st : LockState) (fname fd1 fd2 : Nat)
    (hfree : fname ∉ st.lockedFiles) (osb : Bool) :
    (lockFile st fname fd1 true).1 = LockResult.ok fd1 fname ∧
    fname ∈ (lockFile st fname fd1 true).2.lockedFiles ∧
    fname ∈ (lockFile st fname fd1 true).2.osLocked ∧
    (lockFile (lockFile st fname fd1 true).2 fname fd2 osb).1 =
      LockResult.ioError ∧
    (lockFile (lockFile st fname fd1 true).2 fname fd2 osb).2 =
      (lockFile st fname fd1 true).2 := by
  have h1 : lockFile st fname fd1 true =
      (LockResult.ok fd1 fname,
        { lockedFiles := fname :: st.lockedFiles
          osLocked := fname :: st.osLocked }) := by
    unfold lockFile
    rw [if_neg hfree]
    rfl
  have hmem : fname ∈ fname :: st.lockedFiles := List.mem_cons_self _ _
  have h2 : lockFile
      ({ lockedFiles := fname :: st.lockedFiles
         osLocked := fname :: st.osLocked } : LockState) fname fd2 osb =
      (LockResult.ioError,
        { lockedFiles := fname :: st.lockedFiles
          osLocked := fname :: st.osLocked }) := by
    unfold lockFile
    rw [if_pos hmem]
  rw [h1, h2]
  exact ⟨rfl, hmem, List.mem_cons_self _ _, rfl, rfl⟩

theorem lock_file_twice_witness :
    (lockFile { lockedFiles := [], osLocked := [] } 7 1 true).1 =
      LockResult.ok 1 7 ∧
    (7 : Nat) ∈ (lockFile { lockedFiles := [], osLocked := [] } 7 1
      true).2.lockedFiles ∧
    (lockFile (lockFile { lockedFiles := [], osLocked := [] } 7 1 true).2
      7 2 true).1 = LockResult.ioError := by
  have h := lock_file_twice { lockedFiles := [], osLocked := [] } 7 1 2
    (by decide) true
  exact ⟨h.1, h.2.1, h.2.2.2.1⟩

lemma bgRun_invariant :
    ∀ (es : List BGEvent) (s s2 : BGState), bgRun s es = some s2 →
      s2.done ++ s2.running.toList ++ s2.queue =
        s.done ++ s.running.toList ++ s.queue ++ submitted es := by
  intro es
  induction es with
  | nil =>
    intro s s2 h
    simp only [bgRun, Option.some.injEq] at h
    subst h
    simp [submitted]
  | cons e rest ih =>
    intro s s2 h
    rw [bgRun] at h
    cases he : bgStep s e with
    | none =>
      rw [he] at h
      exact absurd h (by simp)
    | some s1 =>
      rw [he] at h
      simp only at h
      have hrec := ih s1 s2 h
      rw [hrec]
      cases e with
      | schedule j =>
        simp only [bgStep, Option.some.injEq] at he
        subst he
        simp [submitted]
      | dequeue =>
        simp only [bgStep] at he
        rcases hr : s.running with _ | j <;> rw [hr] at he
        · rcases hq : s.queue with _ | ⟨j, q2⟩ <;> rw [hq] at he
          · exact absurd he (by simp)
          · simp only [Option.some.injEq] at he
            subst he
            simp [submitted, hr, hq]
        · exact absurd he (by simp)
      | finish =>
        simp only [bgStep] at he
        rcases hr : s.running with _ | j <;> rw [hr] at he
        · exact absurd he (by simp)
        · simp only [Option.some.injEq] at he
          subst he
          simp [submitted, hr]

/-- C9: for any event trace of the background machinery (Schedule
pushes to the queue tail; the single worker dequeues from the head only
when idle and must finish the running callable before dequeuing again),
the finished jobs followed by the running one followed by the queue
equal the submitted jobs in submission order — so callables start, and
complete, strictly in submission order, the done list always being a
prefix of the submission order. -/
theorem background_fifo_order (es : List BGEvent) (s : BGState)
    (h : bgRun bgInit es = some s) :
    s.done ++ s.running.toList ++ s.queue = submitted es ∧
    ∃ rest, submitted es = s.done ++ rest := by
  have hinv := bgRun_invariant es bgInit s h
  simp only [bgInit, Option.toList_none, List.nil_append,
    List.append_nil] at hinv
  refine ⟨hinv, s.running.toList ++ s.queue, ?_⟩
  rw [← hinv, List.append_assoc]

theorem background_fifo_order_witness :
    ({ queue := [], running := none, done := [1, 2] } : BGState).done ++
        ({ queue := [], running := none,
           done := [1, 2] } : BGState).running.toList ++
        ({ queue := [], running := none, done := [1, 2] } : BGState).queue =
      submitted [BGEvent.schedule 1, BGEvent.schedule 2, BGEvent.dequeue,
        BGEvent.finish, BGEvent.dequeue, BGEvent.finish] :=
  (background_fifo_order
    [BGEvent.schedule 1, BGEvent.schedule 2, BGEvent.dequeue,
      BGEvent.finish, BGEvent.dequeue, BGEvent.finish]
    { queue := [], running := none, done := [1, 2] } (by decide)).1

end LevelDB
